import Mathlib

/-!
Verification of the push-puzzle board engine (`utils.py`).

The board state is a layered grid: layer 0 unmovable, 1 movable (box),
2 character, 3 winspace (exit), 4 empty, 5 reachable flag, 6-9 directional
push costs (negative move counts), 10 best exit cost, 11 visit counter.
The grid is modelled as a total function `Int → Int → Nat → Int`; every
grid access in the source is guarded by an in-bounds test, so out-of-range
values are never consulted.
-/

set_option maxHeartbeats 1000000

/-- Outcome code for an illegal move (`ILLEGAL = -1`). -/
def ILLEGAL : Int := -1

/-- Outcome code for a plain step (`NORMAL = 1`). -/
def NORMAL : Int := 1

/-- Outcome code for a push (`PUSH = 2`). -/
def PUSH : Int := 2

/-- Outcome code for a win (`WIN = 10000`). -/
def WIN : Int := 10000

/-- Number of grid layers (`num_layers = 12`). -/
def num_layers : Nat := 12

/-- Global board size constant (`size = 20`). -/
def size : Nat := 20

/-- A layered grid: value of layer `l` at cell `(x, y)`. -/
abbrev Arr := Int → Int → Nat → Int

/-- Pointwise update of one grid entry (a numpy element assignment). -/
def setA (a : Arr) (x y : Int) (l : Nat) (v : Int) : Arr :=
  fun x' y' l' => if x' = x ∧ y' = y ∧ l' = l then v else a x' y' l'

/-- The direction vectors `vecs = [[-1,0],[0,1],[1,0],[0,-1]]`. -/
def vec : Nat → Int × Int
  | 0 => (-1, 0)
  | 1 => (0, 1)
  | 2 => (1, 0)
  | _ => (0, -1)

/-- `PushPosition.in_bounds`. -/
abbrev in_bounds (sz : Nat) (x y : Int) : Prop :=
  x ≥ 0 ∧ y ≥ 0 ∧ x < (sz : Int) ∧ y < (sz : Int)

/-- `PushPosition.is_unmovable`. -/
abbrev is_unmovable (a : Arr) (x y : Int) : Prop := a x y 0 = 1

/-- `PushPosition.is_movable`. -/
abbrev is_movable (a : Arr) (x y : Int) : Prop := a x y 1 = 1

/-- `PushPosition.is_char`. -/
abbrev is_char (a : Arr) (x y : Int) : Prop := a x y 2 = 1

/-- `PushPosition.is_win`. -/
abbrev is_win (a : Arr) (x y : Int) : Prop := a x y 3 = 1

/-- `PushPosition.is_empty`. -/
abbrev is_empty (a : Arr) (x y : Int) : Prop := a x y 4 = 1

/-- The board-position state of `PushPosition`: grid, its side length,
character location, pushwise move log and accumulated penalty. -/
structure PushPosition where
  size : Nat
  arr : Arr
  char_loc : Int × Int
  exit_loc : Int × Int
  moves : List (Int × Int × Nat)
  moves_penalty : Int

/-- `PushPosition.append_square`: explores one neighbor `(x, y) = square + vec`
of a frontier square.  Marks fresh empty non-win cells reachable (layer 5) and
queues them; records a first arrival at an empty winspace on layers `move+6`
and 10; records a pushable box on layer `move+6` and, when the box sits on a
winspace, maxes layer 10 with the new negative distance.  The state is the
grid together with the `new_squares` list being accumulated. -/
def append_square (sz : Nat) (st : Arr × List (Int × Int)) (square : Int × Int)
    (move : Nat) (num_moves : Nat) : Arr × List (Int × Int) :=
  let a := st.1
  let x := square.1 + (vec move).1
  let y := square.2 + (vec move).2
  if ¬ in_bounds sz x y then st
  else if is_empty a x y ∧ ¬ is_win a x y then
    if a x y 5 = 1 then st
    else (setA a x y 5 1, st.2 ++ [(x, y)])
  else if is_win a x y ∧ is_empty a x y then
    if a x y 6 + a x y 7 + a x y 8 + a x y 9 ≠ 0 then st
    else (setA (setA a x y (move + 6) (-(num_moves : Int))) x y 10 (-(num_moves : Int)), st.2)
  else if ¬ in_bounds sz (x + (vec move).1) (y + (vec move).2) then st
  else if is_movable a x y ∧ is_empty a (x + (vec move).1) (y + (vec move).2) then
    let a1 := setA a x y (move + 6) (-(num_moves : Int))
    if is_win a x y then (setA a1 x y 10 (max (a1 x y 10) (-(num_moves : Int))), st.2)
    else (a1, st.2)
  else st

/-- One frontier expansion of `assign_pushes`: every square of the current
frontier is explored in the four directions, building the next frontier. -/
def bfs_step (sz : Nat) (num_moves : Nat) (st : Arr × List (Int × Int)) :
    Arr × List (Int × Int) :=
  st.2.foldl
    (fun acc sq => [0, 1, 2, 3].foldl
      (fun acc2 m => append_square sz acc2 sq m num_moves) acc)
    (st.1, [])

/-- The frontier loop of `assign_pushes` (`while len(squares) > 0`), with an
explicit fuel bound; `reachability_pass_terminates` below shows that
`sz * sz + 1` fuel always suffices, so the fuel is not a semantic
restriction. -/
def bfs_loop (sz : Nat) : Nat → Arr → List (Int × Int) → Nat → Arr
  | 0, a, _, _ => a
  | fuel + 1, a, squares, number_moves =>
    if squares = [] then a
    else
      let st := bfs_step sz (number_moves + 1) (a, squares)
      bfs_loop sz fuel st.1 st.2 (number_moves + 1)

/-- `self.arr[:,:,5:] = 0`: reset all derived layers. -/
def clear_upper (a : Arr) : Arr := fun x y l => if 5 ≤ l then 0 else a x y l

/-- `self.arr[:,:,11] += self.arr[:,:,5]`: accumulate the visit counter. -/
def add_visits (a : Arr) : Arr :=
  fun x y l => if l = 11 then a x y 11 + a x y 5 else a x y l

/-- `PushPosition.assign_pushes` with explicit fuel for the frontier loop. -/
def assign_pushes_fuel (p : PushPosition) (fuel : Nat) : PushPosition :=
  let a0 := clear_upper p.arr
  let a1 := setA a0 p.char_loc.1 p.char_loc.2 5 1
  let a2 := bfs_loop p.size fuel a1 [p.char_loc] 0
  { p with arr := add_visits a2 }

/-- `PushPosition.assign_pushes`: recompute reachability and push costs.
`sz * sz + 1` frontier iterations always reach the empty frontier. -/
def assign_pushes (p : PushPosition) : PushPosition :=
  assign_pushes_fuel p (p.size * p.size + 1)

/-- `PushPosition.make_move`: a pushwise move at `(x, y)` in `direction`.
Returns the outcome code together with the new state. -/
def make_move (p : PushPosition) (x y : Int) (direction : Nat) :
    Int × PushPosition :=
  if ¬ in_bounds p.size x y ∨ p.arr x y (direction + 6) = 0 then (ILLEGAL, p)
  else
    let p1 := { p with moves := p.moves ++ [(x, y, direction)] }
    if is_win p1.arr x y ∧ ¬ is_movable p1.arr x y then
      (WIN, { p1 with moves_penalty := p1.moves_penalty + p1.arr x y 10 })
    else
      let p2 := { p1 with moves_penalty := p1.moves_penalty + p1.arr x y (direction + 6) }
      if is_win p2.arr x y then (WIN, p2)
      else
        let a := setA p2.arr p2.char_loc.1 p2.char_loc.2 2 0
        let a2 := setA a x y 1 0
        let a3 := setA a2 x y 2 1
        let a4 := setA a3 x y 4 1
        let a5 := setA a4 (x + (vec direction).1) (y + (vec direction).2) 4 0
        let a6 := setA a5 (x + (vec direction).1) (y + (vec direction).2) 1 1
        (PUSH, assign_pushes { p2 with arr := a6, char_loc := (x, y) })

/-- The decoding part of `PushPosition.make_move_number`: recover
`(x, y, direction)` from a linear move index (`sz` is `self.size`, the
`size - 1` offsets use the module-level constant). -/
def decode_num (sz : Nat) (cx cy move : Int) : Int × Int × Int :=
  (move / (((sz : Int) * 2 - 1) * 4) + cx - ((size : Int) - 1),
   (move % (((sz : Int) * 2 - 1) * 4)) / 4 + cy - ((size : Int) - 1),
   move % 4)

/-- `PushPosition.make_move_number`: decode a move index and play it. -/
def make_move_number (p : PushPosition) (move : Int) : Int × PushPosition :=
  let t := decode_num p.size p.char_loc.1 p.char_loc.2 move
  make_move p t.1 t.2.1 t.2.2.toNat

/-- `PushPosition.move_in_direction`: a stepwise move for gameplay.  Returns
the legality boolean together with the new state. -/
def move_in_direction (p : PushPosition) (direction : Nat) :
    Bool × PushPosition :=
  let v := vec direction
  let nx := p.char_loc.1 + v.1
  let ny := p.char_loc.2 + v.2
  if ¬ in_bounds p.size nx ny then (false, p)
  else if p.arr nx ny (direction + 6) = 0 then
    if is_unmovable p.arr nx ny ∨ is_movable p.arr nx ny then (false, p)
    else
      let a := setA p.arr p.char_loc.1 p.char_loc.2 2 0
      let a2 := setA a nx ny 2 1
      let p1 := assign_pushes { p with arr := a2, char_loc := (nx, ny) }
      (true, { p1 with moves_penalty := p1.moves_penalty + 1 })
  else
    let p1 := { p with moves_penalty := p.moves_penalty + 1 }
    (true, (make_move p1 nx ny direction).2)

/-- The character-locating scan of `PushPosition.__init__` (the last cell in
scan order whose layer 2 is set; the source leaves the attribute unset when
no such cell exists, modelled by the default `(0, 0)`). -/
def locate_char (sz : Nat) (a : Arr) : Int × Int :=
  (List.range sz).foldl
    (fun acc x => (List.range sz).foldl
      (fun acc2 y => if a (x : Int) (y : Int) 2 = 1 then ((x : Int), (y : Int)) else acc2) acc)
    (0, 0)

/-- The exit-locating scan of `PushPosition.__init__`. -/
def locate_exit (sz : Nat) (a : Arr) : Int × Int :=
  (List.range sz).foldl
    (fun acc x => (List.range sz).foldl
      (fun acc2 y => if a (x : Int) (y : Int) 3 = 1 then ((x : Int), (y : Int)) else acc2) acc)
    (0, 0)

/-- `PushPosition.__init__`: locate the character and exit, clear the derived
layers and run the first reachability pass. -/
def init_position (sz : Nat) (a : Arr) : PushPosition :=
  assign_pushes
    { size := sz
      arr := clear_upper a
      char_loc := locate_char sz a
      exit_loc := locate_exit sz a
      moves := []
      moves_penalty := 0 }

/-- The state transform inside the `x_rotations` loop: `np.rot90` (a 90°
counter-clockwise spatial rotation, `result[i,j] = a[j, d-1-i]`) followed by
`np.roll(..., -1, axis=2)` of layers 6-9 (new layer `6+k` reads old layer
`6+((k+1) mod 4)`). -/
def rotState (d : Nat) (a : Arr) : Arr :=
  fun i j l =>
    a j ((d : Int) - 1 - i) (if 6 ≤ l ∧ l < 10 then 6 + ((l - 5) % 4) else l)

/-- The reflection used by `x_rotations`: `swapaxes(0, 1)` followed by
`np.flip` of layers 6-9 (new layer `l` reads old layer `15 - l`). -/
def reflState (a : Arr) : Arr :=
  fun i j l => a j i (if 6 ≤ l ∧ l < 10 then 15 - l else l)

/-- The eight boards appended to `data_x` by `x_rotations`: the input, its
three further rotations, then the reflection of the fourth rotation and its
three further rotations. -/
def x_rotations_list (d : Nat) (a : Arr) : List Arr :=
  let c1 := rotState d a
  let c2 := rotState d c1
  let c3 := rotState d c2
  let c4 := rotState d c3
  let r0 := reflState c4
  let r1 := rotState d r0
  let r2 := rotState d r1
  let r3 := rotState d r2
  [a, c1, c2, c3, r0, r1, r2, r3]

/-- `rotate_once`: label rotation in the centered `2*size-1` frame. -/
def rotate_once (x y d : Int) : Int × Int × Int :=
  ((2 * (size : Int) - 1) - y - 1, x, (d - 1) % 4)

/-- Uncurried form of `rotate_once`, for iterating it on a label triple. -/
def rotate_once_t (t : Int × Int × Int) : Int × Int × Int :=
  rotate_once t.1 t.2.1 t.2.2

/-- The move index used by `y_rotations`: `4*dsize*x + 4*y + direction` with
`dsize = 2*size - 1` (the argument of `onehot`, i.e. the hot coordinate of
the emitted label vector). -/
def move_index (x y d : Int) : Int :=
  4 * (2 * (size : Int) - 1) * x + 4 * y + d

/-- The eight move indices appended to `data_y` by `y_rotations`: four label
rotations, then the reflection `(x, y, d) ↦ (y, x, 3 - d)` of the fourth
rotation and its three further rotations. -/
def y_rotations_list (x y d : Int) : List Int :=
  let t1 := rotate_once x y d
  let t2 := rotate_once t1.1 t1.2.1 t1.2.2
  let t3 := rotate_once t2.1 t2.2.1 t2.2.2
  let t4 := rotate_once t3.1 t3.2.1 t3.2.2
  let s0 := (t4.2.1, t4.1, 3 - t4.2.2)
  let s1 := rotate_once s0.1 s0.2.1 s0.2.2
  let s2 := rotate_once s1.1 s1.2.1 s1.2.2
  let s3 := rotate_once s2.1 s2.2.1 s2.2.2
  [move_index x y d,
   move_index t1.1 t1.2.1 t1.2.2,
   move_index t2.1 t2.2.1 t2.2.2,
   move_index t3.1 t3.2.1 t3.2.2,
   move_index s0.1 s0.2.1 s0.2.2,
   move_index s1.1 s1.2.1 s1.2.2,
   move_index s2.1 s2.2.1 s2.2.2,
   move_index s3.1 s3.2.1 s3.2.2]

-- A 3-by-3 fully open test board: all cells empty, character at (1,1),
-- winspace at (1,2).
def board3 : Arr := fun x y l =>
  if 0 ≤ x ∧ x < 3 ∧ 0 ≤ y ∧ y < 3 then
    if l = 4 then 1
    else if l = 2 ∧ x = 1 ∧ y = 1 then 1
    else if l = 3 ∧ x = 1 ∧ y = 2 then 1
    else 0
  else 0

def p3 : PushPosition := init_position 3 board3

-- A 4-by-4 test board with a box resting on the winspace at (2,2),
-- character at (1,1), every other cell empty.  The box is pushable east
-- (from (2,1), distance 1, one more move to push) and south (from (1,2)).
def boardBE : Arr := fun x y l =>
  if 0 ≤ x ∧ x < 4 ∧ 0 ≤ y ∧ y < 4 then
    if x = 2 ∧ y = 2 then (if l = 1 ∨ l = 3 then 1 else 0)
    else if l = 4 then 1
    else if l = 2 ∧ x = 1 ∧ y = 1 then 1
    else 0
  else 0

def pBE : PushPosition := init_position 4 boardBE

-- A generic asymmetric tensor used to instantiate the symmetry theorems.
def boardSym : Arr := fun i j l => i + 2 * j + (l : Int)

-- A 3-by-3 board with no winspace: character at (1,1), a box at (1,2)
-- pushable east is impossible (east of it is the wall), but pushable north
-- and south; all other cells empty.
def boardC1 : Arr := fun x y l =>
  if 0 ≤ x ∧ x < 3 ∧ 0 ≤ y ∧ y < 3 then
    if x = 1 ∧ y = 2 then (if l = 1 then 1 else 0)
    else if l = 4 then 1
    else if l = 2 ∧ x = 1 ∧ y = 1 then 1
    else 0
  else 0

def pC1 : PushPosition := init_position 3 boardC1

/-- Spec-side: the in-bounds cells not yet carrying the reachable flag; the
BFS frontier loop shrinks this set, which bounds its running time. -/
def unmarked_set (sz : Nat) (a : Arr) : Finset (Nat × Nat) :=
  (Finset.range sz ×ˢ Finset.range sz).filter
    fun q => ¬ a (q.1 : Int) (q.2 : Int) 5 = 1

/-- Spec-side: a cell the BFS may walk through — in bounds, empty, and not a
winspace (the source treats winspaces as frontier endpoints, not corridors). -/
def walkable (sz : Nat) (a : Arr) (c : Int × Int) : Prop :=
  in_bounds sz c.1 c.2 ∧ a c.1 c.2 4 = 1 ∧ ¬ a c.1 c.2 3 = 1

/-- Spec-side: `ReachN sz a c0 k c` — there is a walk of exactly `k` steps
from the character cell `c0` to `c` whose every step lands on a walkable
cell (the start cell itself is unconstrained, mirroring the source, which
always seeds the BFS at the character). -/
inductive ReachN (sz : Nat) (a : Arr) (c0 : Int × Int) : Nat → (Int × Int) → Prop where
  | zero : ReachN sz a c0 0 c0
  | step {k : Nat} {c : Int × Int} (m : Nat) (hm : m < 4)
      (hr : ReachN sz a c0 k c)
      (hw : walkable sz a (c.1 + (vec m).1, c.2 + (vec m).2)) :
      ReachN sz a c0 (k + 1) (c.1 + (vec m).1, c.2 + (vec m).2)

/-- Spec-side: `c` is reachable from the character through empty non-win
space. -/
def Reachable (sz : Nat) (a : Arr) (c0 c : Int × Int) : Prop :=
  ∃ k, ReachN sz a c0 k c

/-- Spec-side: `k` is the exact shortest-path length from the character to
`c` through empty non-win space. -/
def dist_eq (sz : Nat) (a : Arr) (c0 : Int × Int) (k : Nat) (c : Int × Int) : Prop :=
  ReachN sz a c0 k c ∧ ∀ j < k, ¬ ReachN sz a c0 j c

/-- Spec-side: the unique cell from which `c` is pushed (or entered) in
direction `m`. -/
def pusher (c : Int × Int) (m : Nat) : Int × Int :=
  (c.1 - (vec m).1, c.2 - (vec m).2)

/-- Spec-side: the static conditions under which the engine records a push
of the box at `c` in direction `m` — the box cell is in bounds and movable
and the cell beyond it is in bounds and empty. -/
def push_entry_cond (sz : Nat) (a : Arr) (c : Int × Int) (m : Nat) : Prop :=
  in_bounds sz c.1 c.2 ∧ a c.1 c.2 1 = 1 ∧
  in_bounds sz (c.1 + (vec m).1) (c.2 + (vec m).2) ∧
  a (c.1 + (vec m).1) (c.2 + (vec m).2) 4 = 1

/-- Spec-side: the in-bounds cell `c` can be stepped into from some cell at
walk distance `k` (used for exit cells, which the walk itself never
crosses). -/
def EnterN (sz : Nat) (a : Arr) (c0 : Int × Int) (k : Nat) (c : Int × Int) : Prop :=
  in_bounds sz c.1 c.2 ∧
  ∃ (q : Int × Int) (m : Nat), m < 4 ∧
    c = (q.1 + (vec m).1, q.2 + (vec m).2) ∧ ReachN sz a c0 k q

/-- Spec-side: `k` is the least walk distance from which `c` can be
entered. -/
def enter_eq (sz : Nat) (a : Arr) (c0 : Int × Int) (k : Nat) (c : Int × Int) : Prop :=
  EnterN sz a c0 k c ∧ ∀ j < k, ¬ EnterN sz a c0 j c

/-- Spec-side: the neighbor cell examined by `append_square` for the
frontier square and direction of `pm`. -/
def tgt (pm : (Int × Int) × Nat) : Int × Int :=
  (pm.1.1 + (vec pm.2).1, pm.1.2 + (vec pm.2).2)

/-- Spec-side: the flattened list of (square, direction) probes a frontier
expansion performs, in execution order. -/
def step_pairs (squares : List (Int × Int)) : List ((Int × Int) × Nat) :=
  squares.flatMap fun sq => [(sq, 0), (sq, 1), (sq, 2), (sq, 3)]

/-- Spec-side: folding `append_square` over a list of probes. -/
def fold_app (sz n : Nat) (acc : Arr × List (Int × Int))
    (P : List ((Int × Int) × Nat)) : Arr × List (Int × Int) :=
  P.foldl (fun ac pm => append_square sz ac pm.1 pm.2 n) acc

/-- Spec-side: the frontier loop keeping the full `(grid, frontier)` state,
for stating per-frontier facts; its grid component coincides with
`bfs_loop`. -/
def bfs_iter (sz : Nat) : Nat → Arr × List (Int × Int) → Nat → Arr × List (Int × Int)
  | 0, st, _ => st
  | j + 1, st, n => if st.2 = [] then st else bfs_iter sz j (bfs_step sz (n + 1) st) (n + 1)

/-- Spec-side: the full invariant of the reachability pass after `j`
frontier iterations over the terrain `ter` (layers 0-4, which the pass
never writes): marks are exactly the cells within walk distance `j`; the
frontier holds exactly the cells at distance `j`; an exit cell carries its
first-arrival cost on layer 10 and exactly one directional layer, or zeros
when not yet entered; a non-empty cell carries `-(k+1)` in direction `m`
exactly when its pusher cell sits at distance `k < j` and the push is
possible, and its layer 10 stays `0`. -/
def BfsInv (sz : Nat) (ter : Arr) (c0 : Int × Int) (j : Nat)
    (st : Arr × List (Int × Int)) : Prop :=
  (∀ (x y : Int) (l : Nat), l ≤ 4 → st.1 x y l = ter x y l) ∧
  (∀ c : Int × Int, st.1 c.1 c.2 5 = 1 ↔ ∃ k, k ≤ j ∧ ReachN sz ter c0 k c) ∧
  (∀ c : Int × Int, c ∈ st.2 ↔ dist_eq sz ter c0 j c) ∧
  (∀ c : Int × Int, ter c.1 c.2 4 = 1 → ter c.1 c.2 3 = 1 →
    ((∃ k, k < j ∧ enter_eq sz ter c0 k c) →
      ∃ k, k < j ∧ enter_eq sz ter c0 k c ∧
        st.1 c.1 c.2 10 = -((k : Int) + 1) ∧
        ∃ m, m < 4 ∧ st.1 c.1 c.2 (m + 6) = -((k : Int) + 1) ∧
          ∀ m', m' < 4 → m' ≠ m → st.1 c.1 c.2 (m' + 6) = 0) ∧
    ((¬ ∃ k, k < j ∧ EnterN sz ter c0 k c) →
      st.1 c.1 c.2 10 = 0 ∧ ∀ m, m < 4 → st.1 c.1 c.2 (m + 6) = 0)) ∧
  (∀ c : Int × Int, ¬ ter c.1 c.2 4 = 1 →
    st.1 c.1 c.2 10 = 0 ∧
    ∀ m, m < 4 →
      ((push_entry_cond sz ter c m ∧ ∃ k, k < j ∧ dist_eq sz ter c0 k (pusher c m)) →
        ∃ k, k < j ∧ dist_eq sz ter c0 k (pusher c m) ∧
          st.1 c.1 c.2 (m + 6) = -((k : Int) + 1)) ∧
      (¬ (push_entry_cond sz ter c m ∧ ∃ k, k < j ∧ ReachN sz ter c0 k (pusher c m)) →
        st.1 c.1 c.2 (m + 6) = 0))

/-- C8: a `make_move` request that is out of bounds or has no directional
push-cost entry returns the `ILLEGAL` outcome and returns the state
unchanged — every layer, the character location, the penalty and the move
record are exactly those of the input position. -/
theorem make_move_illegal (p : PushPosition) (x y : Int) (d : Nat)
    (h : ¬ in_bounds p.size x y ∨ p.arr x y (d + 6) = 0) :
    make_move p x y d = (ILLEGAL, p) := by
  simp only [make_move]
  rw [if_pos h]

/-- Witness for `make_move_illegal`: on the open 3-by-3 board the cell
`(0,0)` is empty, so it carries no push-cost entry and pushing there is
rejected without touching the state. -/
theorem make_move_illegal_witness : make_move p3 0 0 0 = (ILLEGAL, p3) :=
  make_move_illegal p3 0 0 0 (Or.inr (by decide))

/-- C3 as stated is false: the winning push on the 3-by-3 board with the
character at `(1,1)` and the exit at `(1,2)` yields `WIN` but accumulated
penalty `-1`, not `1` — `make_move` adds the stored (negative) best-exit
cost, so the penalty decreases by the magnitude instead of increasing. -/
theorem make_move_exit_win_cex :
    (make_move p3 1 2 1).1 = WIN ∧
    (make_move p3 1 2 1).2.moves_penalty = -1 ∧
    ¬ (make_move p3 1 2 1).2.moves_penalty = 1 := by
  refine ⟨by decide, by decide, by decide⟩

/-- Helper: `make_move` on an exit without a box wins and only logs the
move and adds the stored layer-10 cost to the penalty. -/
theorem make_move_exit_win_aux (p : PushPosition) (x y : Int) (d : Nat)
    (hin : in_bounds p.size x y) (hc : p.arr x y (d + 6) ≠ 0)
    (hw : p.arr x y 3 = 1) (hm : ¬ p.arr x y 1 = 1) :
    make_move p x y d =
      (WIN, { p with moves := p.moves ++ [(x, y, d)],
                     moves_penalty := p.moves_penalty + p.arr x y 10 }) := by
  simp only [make_move]
  rw [if_neg (by push_neg; exact ⟨hin, hc⟩), if_pos (⟨hw, hm⟩ : _ ∧ _)]

/-- C3 (amended): when `make_move` targets an exit cell with no box on it
and a directional cost entry exists, it returns `WIN`, performs no further
state mutation beyond logging the move, and the accumulated penalty
increases by the stored best-exit cost itself — a non-positive number, so
it decreases by the cost's magnitude (the 3-by-3 scenario yields `-1`). -/
theorem make_move_exit_win (p : PushPosition) (x y : Int) (d : Nat)
    (hin : in_bounds p.size x y) (hc : p.arr x y (d + 6) ≠ 0)
    (hw : p.arr x y 3 = 1) (hm : ¬ p.arr x y 1 = 1) :
    make_move p x y d =
      (WIN, { p with moves := p.moves ++ [(x, y, d)],
                     moves_penalty := p.moves_penalty + p.arr x y 10 }) :=
  make_move_exit_win_aux p x y d hin hc hw hm

/-- Witness for `make_move_exit_win`: the 3-by-3 scenario — the stored
best-exit cost at `(1,2)` is `-1`, so the winning push yields penalty
`0 + (-1) = -1`. -/
theorem make_move_exit_win_witness :
    make_move p3 1 2 1 =
      (WIN, { p3 with moves := p3.moves ++ [(1, 2, 1)],
                      moves_penalty := p3.moves_penalty + p3.arr 1 2 10 }) :=
  make_move_exit_win p3 1 2 1 (by decide) (by decide) (by decide) (by decide)

/-- C4 as stated is false: pushing the box resting on the exit `(2,2)` of
`pBE` returns `WIN` with the character still at `(1,1)` (it does not move to
the target), the box still on `(2,2)` (the cell beyond stays box-free), and
penalty `-2` rather than an increase by the stored magnitude `2`. -/
theorem make_move_box_on_exit_cex :
    (make_move pBE 2 2 1).1 = WIN ∧
    (make_move pBE 2 2 1).2.char_loc = (1, 1) ∧ ¬ ((1, 1) : Int × Int) = (2, 2) ∧
    (make_move pBE 2 2 1).2.arr 2 2 1 = 1 ∧
    (make_move pBE 2 2 1).2.arr 2 3 1 = 0 ∧
    (make_move pBE 2 2 1).2.moves_penalty = -2 := by
  refine ⟨by decide, by decide, by decide, by decide, by decide, by decide⟩

/-- Helper: `make_move` on a box resting on an exit wins immediately and
only logs the move and adds the stored directional cost to the penalty. -/
theorem make_move_box_on_exit_aux (p : PushPosition) (x y : Int) (d : Nat)
    (hin : in_bounds p.size x y) (hc : p.arr x y (d + 6) ≠ 0)
    (hw : p.arr x y 3 = 1) (hm : p.arr x y 1 = 1) :
    make_move p x y d =
      (WIN, { p with moves := p.moves ++ [(x, y, d)],
                     moves_penalty := p.moves_penalty + p.arr x y (d + 6) }) := by
  simp only [make_move]
  rw [if_neg (by push_neg; exact ⟨hin, hc⟩),
      if_neg (by intro hcon; exact hcon.2 hm), if_pos hw]

/-- C4 (amended): when `make_move` targets a box resting on an exit cell (a
legal push with a directional cost entry), the penalty increases by the
stored (negative) push cost for that direction and the outcome is `WIN`
immediately: the character and the box do not move, no terrain layer
changes, and the reachability engine is not rerun — only the move record
and the penalty change. -/
theorem make_move_box_on_exit (p : PushPosition) (x y : Int) (d : Nat)
    (hin : in_bounds p.size x y) (hc : p.arr x y (d + 6) ≠ 0)
    (hw : p.arr x y 3 = 1) (hm : p.arr x y 1 = 1) :
    make_move p x y d =
      (WIN, { p with moves := p.moves ++ [(x, y, d)],
                     moves_penalty := p.moves_penalty + p.arr x y (d + 6) }) :=
  make_move_box_on_exit_aux p x y d hin hc hw hm

/-- Witness for `make_move_box_on_exit`: pushing the box on the exit of
`pBE` east: penalty `0 + (-2) = -2`, state otherwise only logs the move. -/
theorem make_move_box_on_exit_witness :
    make_move pBE 2 2 1 =
      (WIN, { pBE with moves := pBE.moves ++ [(2, 2, 1)],
                       moves_penalty := pBE.moves_penalty + pBE.arr 2 2 7 }) :=
  make_move_box_on_exit pBE 2 2 1 (by decide) (by decide) (by decide) (by decide)

/-- C10: when `move_in_direction` steps onto an adjacent winning cell (an
in-bounds cell with a push-cost entry whose winspace flag is set — an empty
exit or a pushable box on an exit), it returns `true` just like an ordinary
legal step, the delegated `WIN` outcome of `make_move` is discarded, and
neither the grid layers nor the character location change. -/
theorem move_in_direction_win_discard (p : PushPosition) (d : Nat)
    (hin : in_bounds p.size (p.char_loc.1 + (vec d).1) (p.char_loc.2 + (vec d).2))
    (hc : p.arr (p.char_loc.1 + (vec d).1) (p.char_loc.2 + (vec d).2) (d + 6) ≠ 0)
    (hw : p.arr (p.char_loc.1 + (vec d).1) (p.char_loc.2 + (vec d).2) 3 = 1) :
    (move_in_direction p d).1 = true ∧
    (move_in_direction p d).2.arr = p.arr ∧
    (move_in_direction p d).2.char_loc = p.char_loc := by
  have hstep : move_in_direction p d =
      (true, (make_move { p with moves_penalty := p.moves_penalty + 1 }
        (p.char_loc.1 + (vec d).1) (p.char_loc.2 + (vec d).2) d).2) := by
    simp only [move_in_direction]
    rw [if_neg (not_not_intro hin), if_neg hc]
  rw [hstep]
  by_cases hm : p.arr (p.char_loc.1 + (vec d).1) (p.char_loc.2 + (vec d).2) 1 = 1
  · rw [make_move_box_on_exit_aux { p with moves_penalty := p.moves_penalty + 1 }
      _ _ _ hin hc hw hm]
    exact ⟨rfl, rfl, rfl⟩
  · rw [make_move_exit_win_aux { p with moves_penalty := p.moves_penalty + 1 }
      _ _ _ hin hc hw hm]
    exact ⟨rfl, rfl, rfl⟩

/-- Witness for `move_in_direction_win_discard`: stepping east from `(1,1)`
on the 3-by-3 board enters the exit; the call answers `true` yet leaves the
grid and the character location untouched. -/
theorem move_in_direction_win_discard_witness :
    (move_in_direction p3 1).1 = true ∧
    (move_in_direction p3 1).2.arr = p3.arr ∧
    (move_in_direction p3 1).2.char_loc = p3.char_loc :=
  move_in_direction_win_discard p3 1 (by decide) (by decide) (by decide)

/-- C6: encoding a push target relative to the character location with
`index = rowOffset*(2*size-1)*4 + colOffset*4 + direction` and decoding the
index with the formula of `make_move_number` recovers the original
`(row, col, direction)`, for every in-bounds target offset and direction in
`[0, 3]` (the board uses the module-level size, `self.size = size = 20`). -/
theorem decode_encode_roundtrip (cx cy tx ty d : Int)
    (hd0 : 0 ≤ d) (hd1 : d < 4)
    (hx0 : 0 ≤ tx - cx + ((size : Int) - 1))
    (hx1 : tx - cx + ((size : Int) - 1) < 2 * (size : Int) - 1)
    (hy0 : 0 ≤ ty - cy + ((size : Int) - 1))
    (hy1 : ty - cy + ((size : Int) - 1) < 2 * (size : Int) - 1) :
    decode_num size cx cy
      (move_index (tx - cx + ((size : Int) - 1)) (ty - cy + ((size : Int) - 1)) d)
      = (tx, ty, d) := by
  simp only [decode_num, move_index, size, Prod.mk.injEq] at *
  norm_num at *
  refine ⟨?_, ?_, ?_⟩ <;> omega

/-- Witness for `decode_encode_roundtrip`: with the character at `(5, 5)`,
the push at `(9, 3)` in direction `2` survives the encode/decode round
trip. -/
theorem decode_encode_roundtrip_witness :
    decode_num size 5 5
      (move_index (9 - 5 + ((size : Int) - 1)) (3 - 5 + ((size : Int) - 1)) 2)
      = (9, 3, 2) :=
  decode_encode_roundtrip 5 5 9 3 2 (by norm_num) (by norm_num)
    (by norm_num [size]) (by norm_num [size]) (by norm_num [size])
    (by norm_num [size])

/-- Helper: four state rotations restore any tensor. -/
theorem rot4_id (n : Nat) (a : Arr) :
    rotState n (rotState n (rotState n (rotState n a))) = a := by
  funext i j l
  simp only [rotState]
  rw [show (n : Int) - 1 - ((n : Int) - 1 - i) = i by ring,
      show (n : Int) - 1 - ((n : Int) - 1 - j) = j by ring]
  by_cases h : 6 ≤ l ∧ l < 10
  · obtain ⟨h1, h2⟩ := h
    interval_cases l <;> norm_num
  · simp [h]

/-- Helper: two state reflections restore any tensor. -/
theorem refl2_id (a : Arr) : reflState (reflState a) = a := by
  funext i j l
  simp only [reflState]
  by_cases h : 6 ≤ l ∧ l < 10
  · obtain ⟨h1, h2⟩ := h
    interval_cases l <;> norm_num
  · simp [h]

/-- Helper: four label rotations restore any triple with direction in
`[0, 4)`. -/
theorem rotate_once4_id (x y d : Int) (hd0 : 0 ≤ d) (hd1 : d < 4) :
    rotate_once_t (rotate_once_t (rotate_once_t (rotate_once_t (x, y, d))))
      = (x, y, d) := by
  simp only [rotate_once_t, rotate_once, size, Prod.mk.injEq]
  norm_num
  refine ⟨by omega, by omega, by omega⟩

/-- C7: the symmetry transforms are closed — four applications of the state
rotation (`np.rot90` plus the cyclic roll of the cost layers) restore any
tensor exactly, two applications of the state reflection (axis swap plus
reversal of the cost layers) restore any tensor exactly, and four
applications of `rotate_once` restore any label triple whose direction lies
in `[0, 3]`. -/
theorem symmetry_transforms_closed :
    (∀ (n : Nat) (a : Arr),
      rotState n (rotState n (rotState n (rotState n a))) = a) ∧
    (∀ a : Arr, reflState (reflState a) = a) ∧
    (∀ x y d : Int, 0 ≤ d → d < 4 →
      rotate_once_t (rotate_once_t (rotate_once_t (rotate_once_t (x, y, d))))
        = (x, y, d)) :=
  ⟨rot4_id, refl2_id, fun x y d hd0 hd1 => rotate_once4_id x y d hd0 hd1⟩

/-- Witness for `symmetry_transforms_closed`: the rotation-closure part at
the concrete label triple `(7, 11, 2)`. -/
theorem symmetry_transforms_closed_witness :
    rotate_once_t (rotate_once_t (rotate_once_t (rotate_once_t (7, 11, 2))))
      = (7, 11, 2) :=
  symmetry_transforms_closed.2.2 7 11 2 (by norm_num) (by norm_num)

/-- Helper: evaluating a rotated state on a cost layer reads the source one
quarter turn back, one cost layer forward. -/
theorem rot_cost (a : Arr) (i j : Int) (k : Nat) (hk : k < 4) :
    rotState (2 * size - 1) a i j (6 + k) = a j (38 - i) (6 + (k + 1) % 4) := by
  simp only [rotState]
  rw [if_pos (by omega : 6 ≤ 6 + k ∧ 6 + k < 10),
      show ((2 * size - 1 : Nat) : Int) - 1 - i = 38 - i by norm_num [size],
      show 6 + (6 + k - 5) % 4 = 6 + (k + 1) % 4 by omega]

/-- Helper: evaluating a reflected state on a cost layer reads the source
with axes swapped and the cost layer reversed. -/
theorem refl_cost (a : Arr) (i j : Int) (k : Nat) (hk : k < 4) :
    reflState a i j (6 + k) = a j i (6 + (3 - k)) := by
  simp only [reflState]
  rw [if_pos (by omega : 6 ≤ 6 + k ∧ 6 + k < 10),
      show 15 - (6 + k) = 6 + (3 - k) by omega]

/-- Helper: decoding an encoded centered move index (character at the
tensor center `(size-1, size-1)`) recovers the encoded triple. -/
theorem decode_entry (X Y D : Int)
    (hX0 : 0 ≤ X) (hX1 : X < 2 * (size : Int) - 1)
    (hY0 : 0 ≤ Y) (hY1 : Y < 2 * (size : Int) - 1)
    (hD0 : 0 ≤ D) (hD1 : D < 4) :
    decode_num size ((size : Int) - 1) ((size : Int) - 1) (move_index X Y D)
      = (X, Y, D) := by
  simp only [decode_num, move_index, size, Prod.mk.injEq] at *
  norm_num at *
  refine ⟨by omega, by omega, by omega⟩

/-- C2: for every centered `39 × 39` state tensor and every move label
`(x, y, d)` in range, and for each of the 8 dihedral transforms produced by
`x_rotations` and `y_rotations`, decoding the transformed move index (the
character sits at the tensor center) designates a push that carries exactly
the original push's directional cost in the transformed tensor — hence is
legal there whenever the original push is legal — and whose target and
direction are the geometric image of the original under that transform.
The first two conjuncts pin down the 8 states and the 8 indices the two
generators emit; the remaining 8 decode each index and evaluate the
matching state at the decoded push. -/
theorem augmentor_label_state_consistent (a : Arr) (x y : Int) (d : Nat)
    (hx0 : 0 ≤ x) (hx1 : x < 2 * (size : Int) - 1)
    (hy0 : 0 ≤ y) (hy1 : y < 2 * (size : Int) - 1) (hd : d < 4) :
    x_rotations_list (2 * size - 1) a =
      [a,
       rotState (2 * size - 1) a,
       rotState (2 * size - 1) (rotState (2 * size - 1) a),
       rotState (2 * size - 1) (rotState (2 * size - 1) (rotState (2 * size - 1) a)),
       reflState (rotState (2 * size - 1) (rotState (2 * size - 1)
         (rotState (2 * size - 1) (rotState (2 * size - 1) a)))),
       rotState (2 * size - 1) (reflState (rotState (2 * size - 1)
         (rotState (2 * size - 1) (rotState (2 * size - 1) (rotState (2 * size - 1) a))))),
       rotState (2 * size - 1) (rotState (2 * size - 1) (reflState
         (rotState (2 * size - 1) (rotState (2 * size - 1)
           (rotState (2 * size - 1) (rotState (2 * size - 1) a)))))),
       rotState (2 * size - 1) (rotState (2 * size - 1) (rotState (2 * size - 1)
         (reflState (rotState (2 * size - 1) (rotState (2 * size - 1)
           (rotState (2 * size - 1) (rotState (2 * size - 1) a)))))))] ∧
    y_rotations_list x y (d : Int) =
      [move_index x y (d : Int),
       move_index (38 - y) x (((d + 3) % 4 : Nat) : Int),
       move_index (38 - x) (38 - y) (((d + 2) % 4 : Nat) : Int),
       move_index y (38 - x) (((d + 1) % 4 : Nat) : Int),
       move_index y x ((3 - d : Nat) : Int),
       move_index (38 - x) y (((6 - d) % 4 : Nat) : Int),
       move_index (38 - y) (38 - x) (((5 - d) % 4 : Nat) : Int),
       move_index x (38 - y) (((4 - d) % 4 : Nat) : Int)] ∧
    (decode_num size ((size : Int) - 1) ((size : Int) - 1)
        (move_index x y (d : Int)) = (x, y, (d : Int)) ∧
      a x y (6 + d) = a x y (6 + d)) ∧
    (decode_num size ((size : Int) - 1) ((size : Int) - 1)
        (move_index (38 - y) x (((d + 3) % 4 : Nat) : Int))
        = (38 - y, x, (((d + 3) % 4 : Nat) : Int)) ∧
      rotState (2 * size - 1) a (38 - y) x (6 + (d + 3) % 4) = a x y (6 + d)) ∧
    (decode_num size ((size : Int) - 1) ((size : Int) - 1)
        (move_index (38 - x) (38 - y) (((d + 2) % 4 : Nat) : Int))
        = (38 - x, 38 - y, (((d + 2) % 4 : Nat) : Int)) ∧
      rotState (2 * size - 1) (rotState (2 * size - 1) a) (38 - x) (38 - y)
        (6 + (d + 2) % 4) = a x y (6 + d)) ∧
    (decode_num size ((size : Int) - 1) ((size : Int) - 1)
        (move_index y (38 - x) (((d + 1) % 4 : Nat) : Int))
        = (y, 38 - x, (((d + 1) % 4 : Nat) : Int)) ∧
      rotState (2 * size - 1) (rotState (2 * size - 1) (rotState (2 * size - 1) a))
        y (38 - x) (6 + (d + 1) % 4) = a x y (6 + d)) ∧
    (decode_num size ((size : Int) - 1) ((size : Int) - 1)
        (move_index y x ((3 - d : Nat) : Int)) = (y, x, ((3 - d : Nat) : Int)) ∧
      reflState (rotState (2 * size - 1) (rotState (2 * size - 1)
          (rotState (2 * size - 1) (rotState (2 * size - 1) a))))
        y x (6 + (3 - d)) = a x y (6 + d)) ∧
    (decode_num size ((size : Int) - 1) ((size : Int) - 1)
        (move_index (38 - x) y (((6 - d) % 4 : Nat) : Int))
        = (38 - x, y, (((6 - d) % 4 : Nat) : Int)) ∧
      rotState (2 * size - 1) (reflState (rotState (2 * size - 1)
          (rotState (2 * size - 1) (rotState (2 * size - 1) (rotState (2 * size - 1) a)))))
        (38 - x) y (6 + (6 - d) % 4) = a x y (6 + d)) ∧
    (decode_num size ((size : Int) - 1) ((size : Int) - 1)
        (move_index (38 - y) (38 - x) (((5 - d) % 4 : Nat) : Int))
        = (38 - y, 38 - x, (((5 - d) % 4 : Nat) : Int)) ∧
      rotState (2 * size - 1) (rotState (2 * size - 1) (reflState
          (rotState (2 * size - 1) (rotState (2 * size - 1)
            (rotState (2 * size - 1) (rotState (2 * size - 1) a))))))
        (38 - y) (38 - x) (6 + (5 - d) % 4) = a x y (6 + d)) ∧
    (decode_num size ((size : Int) - 1) ((size : Int) - 1)
        (move_index x (38 - y) (((4 - d) % 4 : Nat) : Int))
        = (x, 38 - y, (((4 - d) % 4 : Nat) : Int)) ∧
      rotState (2 * size - 1) (rotState (2 * size - 1) (rotState (2 * size - 1)
          (reflState (rotState (2 * size - 1) (rotState (2 * size - 1)
            (rotState (2 * size - 1) (rotState (2 * size - 1) a)))))))
        x (38 - y) (6 + (4 - d) % 4) = a x y (6 + d)) := by
  have hs : (size : Int) = 20 := by norm_num [size]
  -- the list of emitted states is definitionally the stated one; the label
  -- list and the per-transform conjuncts are settled below
  refine ⟨rfl, ?_, ⟨decode_entry _ _ _ hx0 hx1 hy0 hy1 (by omega) (by omega), rfl⟩,
    ⟨decode_entry _ _ _ (by omega) (by omega) hx0 hx1 (by omega) (by omega), ?_⟩,
    ⟨decode_entry _ _ _ (by omega) (by omega) (by omega) (by omega) (by omega) (by omega), ?_⟩,
    ⟨decode_entry _ _ _ hy0 hy1 (by omega) (by omega) (by omega) (by omega), ?_⟩,
    ⟨decode_entry _ _ _ hy0 hy1 hx0 hx1 (by omega) (by omega), ?_⟩,
    ⟨decode_entry _ _ _ (by omega) (by omega) hy0 hy1 (by omega) (by omega), ?_⟩,
    ⟨decode_entry _ _ _ (by omega) (by omega) (by omega) (by omega) (by omega) (by omega), ?_⟩,
    ⟨decode_entry _ _ _ hx0 hx1 (by omega) (by omega) (by omega) (by omega), ?_⟩⟩
  · simp only [y_rotations_list, rotate_once, move_index, size, List.cons.injEq]
    norm_num
    refine ⟨by omega, by omega, by omega, by omega, by omega, by omega, by omega⟩
  · rw [rot_cost _ _ _ _ (by omega), show (38 : Int) - (38 - y) = y by ring]
    congr 1
    omega
  · rw [rot_cost _ _ _ _ (by omega), show (38 : Int) - (38 - x) = x by ring,
        rot_cost _ _ _ _ (by omega), show (38 : Int) - (38 - y) = y by ring]
    congr 1
    omega
  · rw [rot_cost _ _ _ _ (by omega),
        rot_cost _ _ _ _ (by omega), show (38 : Int) - (38 - x) = x by ring,
        rot_cost _ _ _ _ (by omega), show (38 : Int) - (38 - y) = y by ring]
    congr 1
    omega
  · rw [refl_cost _ _ _ _ (by omega), rot4_id]
    congr 1
    omega
  · rw [rot_cost _ _ _ _ (by omega), show (38 : Int) - (38 - x) = x by ring,
        refl_cost _ _ _ _ (by omega), rot4_id]
    congr 1
    omega
  · rw [rot_cost _ _ _ _ (by omega), show (38 : Int) - (38 - y) = y by ring,
        rot_cost _ _ _ _ (by omega), show (38 : Int) - (38 - x) = x by ring,
        refl_cost _ _ _ _ (by omega), rot4_id]
    congr 1
    omega
  · rw [rot_cost _ _ _ _ (by omega),
        rot_cost _ _ _ _ (by omega), show (38 : Int) - (38 - y) = y by ring,
        rot_cost _ _ _ _ (by omega), show (38 : Int) - (38 - x) = x by ring,
        refl_cost _ _ _ _ (by omega), rot4_id]
    congr 1
    omega

/-- Helper: a grid update read elsewhere. -/
theorem setA_ne (a : Arr) (X Y : Int) (L : Nat) (v : Int) (x y : Int) (l : Nat)
    (h : ¬ (x = X ∧ y = Y ∧ l = L)) : setA a X Y L v x y l = a x y l :=
  if_neg h

/-- Helper: a grid update read back. -/
theorem setA_same (a : Arr) (X Y : Int) (L : Nat) (v : Int) :
    setA a X Y L v X Y L = v :=
  if_pos ⟨rfl, rfl, rfl⟩

/-- Helper: `append_square` leaves every layer outside `[5, 10]` and every
cell other than the probed neighbor untouched. -/
theorem app_untouched (sz : Nat) (st : Arr × List (Int × Int)) (sq : Int × Int)
    (m n : Nat) (hm : m < 4) (x y : Int) (l : Nat)
    (h : ¬ (x = (tgt (sq, m)).1 ∧ y = (tgt (sq, m)).2) ∨ l ≤ 4 ∨ 11 ≤ l) :
    (append_square sz st sq m n).1 x y l = st.1 x y l := by
  have hne : ∀ L : Nat, 5 ≤ L → L ≤ 10 → ¬ (x = (tgt (sq, m)).1 ∧ y = (tgt (sq, m)).2 ∧ l = L) := by
    rintro L h5 h10 ⟨rfl, rfl, rfl⟩
    rcases h with h | h | h
    · exact h ⟨rfl, rfl⟩
    · omega
    · omega
  simp only [append_square, tgt] at hne ⊢
  split_ifs <;> dsimp only <;>
    first
      | rfl
      | (rw [setA_ne _ _ _ _ _ _ _ _ (hne 5 (by omega) (by omega))])
      | (rw [setA_ne _ _ _ _ _ _ _ _ (hne 10 (by omega) (by omega)),
             setA_ne _ _ _ _ _ _ _ _ (hne (m + 6) (by omega) (by omega))])
      | (rw [setA_ne _ _ _ _ _ _ _ _ (hne (m + 6) (by omega) (by omega))])

/-- Helper: `append_square` marks exactly the probed neighbor, and only
when it is an in-bounds empty non-win cell. -/
theorem app_mark (sz : Nat) (st : Arr × List (Int × Int)) (sq : Int × Int)
    (m n : Nat) (hm : m < 4) (x y : Int) :
    ((append_square sz st sq m n).1 x y 5 = 1 ↔
      st.1 x y 5 = 1 ∨
        (x = (tgt (sq, m)).1 ∧ y = (tgt (sq, m)).2 ∧ in_bounds sz x y ∧
          st.1 x y 4 = 1 ∧ ¬ st.1 x y 3 = 1)) := by
  by_cases hc : x = (tgt (sq, m)).1 ∧ y = (tgt (sq, m)).2
  · obtain ⟨hx, hy⟩ := hc
    subst hx
    subst hy
    simp only [append_square, tgt, is_empty, is_win, is_movable] at *
    split_ifs with h1 h2 h3 h4 h5 h6 h7 h8
    all_goals try dsimp only
    all_goals try rw [setA_same]
    all_goals try rw [setA_ne _ _ _ _ _ _ _ _ (by omega :
      ¬ (sq.1 + (vec m).1 = sq.1 + (vec m).1 ∧ sq.2 + (vec m).2 = sq.2 + (vec m).2 ∧ 5 = 10))]
    all_goals try rw [setA_ne _ _ _ _ _ _ _ _ (by omega :
      ¬ (sq.1 + (vec m).1 = sq.1 + (vec m).1 ∧ sq.2 + (vec m).2 = sq.2 + (vec m).2 ∧ 5 = m + 6))]
    all_goals tauto
  · rw [app_untouched _ _ _ _ _ hm _ _ _ (Or.inl hc)]
    tauto

/-- Helper: `append_square` appends exactly the probed neighbor to the
queue, and only when it is an in-bounds, empty, non-win, still-unmarked
cell. -/
theorem app_queue (sz : Nat) (st : Arr × List (Int × Int)) (sq : Int × Int)
    (m n : Nat) :
    (append_square sz st sq m n).2 =
      st.2 ++
        (if in_bounds sz (tgt (sq, m)).1 (tgt (sq, m)).2 ∧
            st.1 (tgt (sq, m)).1 (tgt (sq, m)).2 4 = 1 ∧
            ¬ st.1 (tgt (sq, m)).1 (tgt (sq, m)).2 3 = 1 ∧
            ¬ st.1 (tgt (sq, m)).1 (tgt (sq, m)).2 5 = 1
          then [tgt (sq, m)] else []) := by
  simp only [append_square, tgt, is_empty, is_win, is_movable] at *
  split_ifs with h1 h2 h3 h4 h5 h6 h7 h8
  all_goals try dsimp only
  all_goals try rw [List.append_nil]
  all_goals exfalso
  all_goals tauto

/-- Helper: probing an out-of-bounds neighbor does nothing. -/
theorem app_oob (sz : Nat) (st : Arr × List (Int × Int)) (sq : Int × Int)
    (m n : Nat) (h : ¬ in_bounds sz (tgt (sq, m)).1 (tgt (sq, m)).2) :
    append_square sz st sq m n = st := by
  simp only [append_square, tgt] at *
  rw [if_pos h]

/-- Helper: probing an exit that was already recorded (a nonzero cost-layer
sum) does nothing. -/
theorem app_exit_skip (sz : Nat) (st : Arr × List (Int × Int)) (sq : Int × Int)
    (m n : Nat)
    (hwin : st.1 (tgt (sq, m)).1 (tgt (sq, m)).2 3 = 1)
    (hemp : st.1 (tgt (sq, m)).1 (tgt (sq, m)).2 4 = 1)
    (hsum : st.1 (tgt (sq, m)).1 (tgt (sq, m)).2 6 +
        st.1 (tgt (sq, m)).1 (tgt (sq, m)).2 7 +
        st.1 (tgt (sq, m)).1 (tgt (sq, m)).2 8 +
        st.1 (tgt (sq, m)).1 (tgt (sq, m)).2 9 ≠ 0) :
    append_square sz st sq m n = st := by
  simp only [append_square, tgt, is_empty, is_win, is_movable] at *
  split_ifs
  all_goals first | rfl | tauto

/-- Helper: the first probe of an in-bounds empty exit records the negated
move count on the probe's directional layer and on layer 10. -/
theorem app_exit_fresh (sz : Nat) (st : Arr × List (Int × Int)) (sq : Int × Int)
    (m n : Nat)
    (hb : in_bounds sz (tgt (sq, m)).1 (tgt (sq, m)).2)
    (hwin : st.1 (tgt (sq, m)).1 (tgt (sq, m)).2 3 = 1)
    (hemp : st.1 (tgt (sq, m)).1 (tgt (sq, m)).2 4 = 1)
    (hz6 : st.1 (tgt (sq, m)).1 (tgt (sq, m)).2 6 = 0)
    (hz7 : st.1 (tgt (sq, m)).1 (tgt (sq, m)).2 7 = 0)
    (hz8 : st.1 (tgt (sq, m)).1 (tgt (sq, m)).2 8 = 0)
    (hz9 : st.1 (tgt (sq, m)).1 (tgt (sq, m)).2 9 = 0) :
    append_square sz st sq m n =
      (setA (setA st.1 (tgt (sq, m)).1 (tgt (sq, m)).2 (m + 6) (-(n : Int)))
         (tgt (sq, m)).1 (tgt (sq, m)).2 10 (-(n : Int)), st.2) := by
  have hsum0 : st.1 (tgt (sq, m)).1 (tgt (sq, m)).2 6 +
      st.1 (tgt (sq, m)).1 (tgt (sq, m)).2 7 +
      st.1 (tgt (sq, m)).1 (tgt (sq, m)).2 8 +
      st.1 (tgt (sq, m)).1 (tgt (sq, m)).2 9 = 0 := by
    rw [hz6, hz7, hz8, hz9]
    ring
  simp only [append_square, tgt, is_empty, is_win, is_movable] at *
  split_ifs
  all_goals first | rfl | tauto

/-- Helper: probing a pushable box that does not rest on a winspace records
the negated move count on the probe's directional layer only. -/
theorem app_box_nowin (sz : Nat) (st : Arr × List (Int × Int)) (sq : Int × Int)
    (m n : Nat)
    (hb : in_bounds sz (tgt (sq, m)).1 (tgt (sq, m)).2)
    (hne : ¬ st.1 (tgt (sq, m)).1 (tgt (sq, m)).2 4 = 1)
    (hmv : st.1 (tgt (sq, m)).1 (tgt (sq, m)).2 1 = 1)
    (hbB : in_bounds sz ((tgt (sq, m)).1 + (vec m).1) ((tgt (sq, m)).2 + (vec m).2))
    (heB : st.1 ((tgt (sq, m)).1 + (vec m).1) ((tgt (sq, m)).2 + (vec m).2) 4 = 1)
    (hnw : ¬ st.1 (tgt (sq, m)).1 (tgt (sq, m)).2 3 = 1) :
    append_square sz st sq m n =
      (setA st.1 (tgt (sq, m)).1 (tgt (sq, m)).2 (m + 6) (-(n : Int)), st.2) := by
  simp only [append_square, tgt, is_empty, is_win, is_movable] at *
  split_ifs
  all_goals first | rfl | tauto

/-- Helper: probing a pushable box resting on a winspace records the
directional cost and maxes layer 10 with the negated move count. -/
theorem app_box_win (sz : Nat) (st : Arr × List (Int × Int)) (sq : Int × Int)
    (m n : Nat)
    (hb : in_bounds sz (tgt (sq, m)).1 (tgt (sq, m)).2)
    (hne : ¬ st.1 (tgt (sq, m)).1 (tgt (sq, m)).2 4 = 1)
    (hmv : st.1 (tgt (sq, m)).1 (tgt (sq, m)).2 1 = 1)
    (hbB : in_bounds sz ((tgt (sq, m)).1 + (vec m).1) ((tgt (sq, m)).2 + (vec m).2))
    (heB : st.1 ((tgt (sq, m)).1 + (vec m).1) ((tgt (sq, m)).2 + (vec m).2) 4 = 1)
    (hw : st.1 (tgt (sq, m)).1 (tgt (sq, m)).2 3 = 1) :
    append_square sz st sq m n =
      (setA (setA st.1 (tgt (sq, m)).1 (tgt (sq, m)).2 (m + 6) (-(n : Int)))
         (tgt (sq, m)).1 (tgt (sq, m)).2 10
         (max (setA st.1 (tgt (sq, m)).1 (tgt (sq, m)).2 (m + 6) (-(n : Int))
            (tgt (sq, m)).1 (tgt (sq, m)).2 10) (-(n : Int))), st.2) := by
  simp only [append_square, tgt, is_empty, is_win, is_movable] at *
  split_ifs
  all_goals first | rfl | tauto

/-- Helper: probing a non-empty cell whose push is not possible (beyond out
of bounds, not a box, or beyond not empty) does nothing. -/
theorem app_box_skip (sz : Nat) (st : Arr × List (Int × Int)) (sq : Int × Int)
    (m n : Nat)
    (hne : ¬ st.1 (tgt (sq, m)).1 (tgt (sq, m)).2 4 = 1)
    (hskip : ¬ in_bounds sz ((tgt (sq, m)).1 + (vec m).1) ((tgt (sq, m)).2 + (vec m).2) ∨
      ¬ st.1 (tgt (sq, m)).1 (tgt (sq, m)).2 1 = 1 ∨
      ¬ st.1 ((tgt (sq, m)).1 + (vec m).1) ((tgt (sq, m)).2 + (vec m).2) 4 = 1) :
    append_square sz st sq m n = st := by
  simp only [append_square, tgt, is_empty, is_win, is_movable] at *
  split_ifs
  all_goals first | rfl | tauto

/-- Helper: the nested loops of `bfs_step` are the fold of `append_square`
over the flattened probe list. -/
theorem fold_app_of_step (sz n : Nat) :
    ∀ (squares : List (Int × Int)) (acc : Arr × List (Int × Int)),
      squares.foldl
        (fun acc2 sq => [0, 1, 2, 3].foldl
          (fun acc3 m => append_square sz acc3 sq m n) acc2) acc
        = fold_app sz n acc (step_pairs squares) := by
  intro squares
  induction squares with
  | nil => intro acc; rfl
  | cons sq sqs ih =>
    intro acc
    have h1 : step_pairs (sq :: sqs) =
        [(sq, 0), (sq, 1), (sq, 2), (sq, 3)] ++ step_pairs sqs := rfl
    rw [List.foldl_cons, ih, h1]
    unfold fold_app
    rw [List.foldl_append]
    rfl

/-- Helper: `bfs_step` as a fold over the probe list. -/
theorem bfs_step_pairs (sz n : Nat) (a : Arr) (squares : List (Int × Int)) :
    bfs_step sz n (a, squares) = fold_app sz n (a, []) (step_pairs squares) := by
  unfold bfs_step
  exact fold_app_of_step sz n squares (a, [])

/-- Helper: every probe in a flattened probe list has direction below 4. -/
theorem step_pairs_dir (squares : List (Int × Int)) :
    ∀ pm ∈ step_pairs squares, pm.2 < 4 := by
  intro pm hpm
  unfold step_pairs at hpm
  rw [List.mem_flatMap] at hpm
  obtain ⟨sq, _, hmem⟩ := hpm
  simp only [List.mem_cons, List.mem_singleton] at hmem
  rcases hmem with rfl | rfl | rfl | rfl | h
  · omega
  · omega
  · omega
  · omega
  · simp at h

/-- Helper: a probed square appears in the flattened probe list exactly when
it belongs to the frontier. -/
theorem step_pairs_mem (squares : List (Int × Int)) (sq : Int × Int) (m : Nat)
    (hm : m < 4) : (sq, m) ∈ step_pairs squares ↔ sq ∈ squares := by
  unfold step_pairs
  rw [List.mem_flatMap]
  constructor
  · rintro ⟨sq', hsq', hmem⟩
    simp only [List.mem_cons, List.mem_singleton] at hmem
    rcases hmem with h | h | h | h | h
    · rw [(Prod.mk.injEq .. ).mp h |>.1]; exact hsq'
    · rw [(Prod.mk.injEq .. ).mp h |>.1]; exact hsq'
    · rw [(Prod.mk.injEq .. ).mp h |>.1]; exact hsq'
    · rw [(Prod.mk.injEq .. ).mp h |>.1]; exact hsq'
    · simp at h
  · intro hsq
    refine ⟨sq, hsq, ?_⟩
    interval_cases m <;> simp

/-- Helper: a fold of probes leaves terrain layers (0-4) and layer 11
untouched. -/
theorem fold_low (sz n : Nat) (P : List ((Int × Int) × Nat))
    (hP : ∀ pm ∈ P, pm.2 < 4) :
    ∀ (acc : Arr × List (Int × Int)) (x y : Int) (l : Nat),
      l ≤ 4 ∨ 11 ≤ l → (fold_app sz n acc P).1 x y l = acc.1 x y l := by
  induction P with
  | nil => intro acc x y l _; rfl
  | cons pm P' ih =>
    intro acc x y l hl
    have h1 : fold_app sz n acc (pm :: P') =
        fold_app sz n (append_square sz acc pm.1 pm.2 n) P' := rfl
    rw [h1, ih (fun q hq => hP q (List.mem_cons_of_mem _ hq)) _ x y l hl,
        app_untouched sz acc pm.1 pm.2 n (hP pm (List.mem_cons_self _ _)) x y l (Or.inr hl)]

/-- Helper: after a fold of probes a cell carries the reachable flag exactly
when it already carried it or is an in-bounds empty non-win target of some
probe. -/
theorem fold_mark (sz n : Nat) (P : List ((Int × Int) × Nat))
    (hP : ∀ pm ∈ P, pm.2 < 4) :
    ∀ (acc : Arr × List (Int × Int)) (x y : Int),
      ((fold_app sz n acc P).1 x y 5 = 1 ↔
        acc.1 x y 5 = 1 ∨
          (in_bounds sz x y ∧ acc.1 x y 4 = 1 ∧ ¬ acc.1 x y 3 = 1 ∧
            ∃ pm ∈ P, x = (tgt pm).1 ∧ y = (tgt pm).2)) := by
  induction P with
  | nil => intro acc x y; simp [fold_app]
  | cons pm P' ih =>
    intro acc x y
    have hm : pm.2 < 4 := hP pm (List.mem_cons_self _ _)
    have h1 : fold_app sz n acc (pm :: P') =
        fold_app sz n (append_square sz acc pm.1 pm.2 n) P' := rfl
    have h4 : (append_square sz acc pm.1 pm.2 n).1 x y 4 = acc.1 x y 4 :=
      app_untouched sz acc pm.1 pm.2 n hm x y 4 (Or.inr (Or.inl (by omega)))
    have h3 : (append_square sz acc pm.1 pm.2 n).1 x y 3 = acc.1 x y 3 :=
      app_untouched sz acc pm.1 pm.2 n hm x y 3 (Or.inr (Or.inl (by omega)))
    have hmark := app_mark sz acc pm.1 pm.2 n hm x y
    rw [h1, ih (fun q hq => hP q (List.mem_cons_of_mem _ hq)) _ x y, hmark, h4, h3]
    simp only [List.mem_cons, exists_eq_or_imp]
    constructor
    · rintro ((h | ⟨ht1, ht2, hb, he, hw⟩) | ⟨hb, he, hw, hex⟩)
      · exact Or.inl h
      · exact Or.inr ⟨hb, he, hw, Or.inl ⟨ht1, ht2⟩⟩
      · exact Or.inr ⟨hb, he, hw, Or.inr hex⟩
    · rintro (h | ⟨hb, he, hw, (⟨ht1, ht2⟩ | hex)⟩)
      · exact Or.inl (Or.inl h)
      · exact Or.inl (Or.inr ⟨ht1, ht2, hb, he, hw⟩)
      · exact Or.inr ⟨hb, he, hw, hex⟩

/-- Helper: after a fold of probes the queue contains exactly its previous
members plus the in-bounds empty non-win previously-unmarked targets of the
probes. -/
theorem fold_queue (sz n : Nat) (P : List ((Int × Int) × Nat))
    (hP : ∀ pm ∈ P, pm.2 < 4) :
    ∀ (acc : Arr × List (Int × Int)) (c : Int × Int),
      (c ∈ (fold_app sz n acc P).2 ↔
        c ∈ acc.2 ∨
          (in_bounds sz c.1 c.2 ∧ acc.1 c.1 c.2 4 = 1 ∧ ¬ acc.1 c.1 c.2 3 = 1 ∧
            ¬ acc.1 c.1 c.2 5 = 1 ∧ ∃ pm ∈ P, c = tgt pm)) := by
  induction P with
  | nil => intro acc c; simp [fold_app]
  | cons pm P' ih =>
    obtain ⟨psq, pmv⟩ := pm
    intro acc c
    have hm : pmv < 4 := hP (psq, pmv) (List.mem_cons_self _ _)
    have h1 : fold_app sz n acc ((psq, pmv) :: P') =
        fold_app sz n (append_square sz acc psq pmv n) P' := rfl
    have h4 : (append_square sz acc psq pmv n).1 c.1 c.2 4 = acc.1 c.1 c.2 4 :=
      app_untouched sz acc psq pmv n hm c.1 c.2 4 (Or.inr (Or.inl (by omega)))
    have h3 : (append_square sz acc psq pmv n).1 c.1 c.2 3 = acc.1 c.1 c.2 3 :=
      app_untouched sz acc psq pmv n hm c.1 c.2 3 (Or.inr (Or.inl (by omega)))
    have hmark := app_mark sz acc psq pmv n hm c.1 c.2
    have hqu := app_queue sz acc psq pmv n
    rw [h1, ih (fun q hq => hP q (List.mem_cons_of_mem _ hq)) _ c, h4, h3, hmark, hqu]
    simp only [List.mem_cons, exists_eq_or_imp, List.mem_append]
    by_cases hcond : in_bounds sz (tgt (psq, pmv)).1 (tgt (psq, pmv)).2 ∧
        acc.1 (tgt (psq, pmv)).1 (tgt (psq, pmv)).2 4 = 1 ∧
        ¬ acc.1 (tgt (psq, pmv)).1 (tgt (psq, pmv)).2 3 = 1 ∧
        ¬ acc.1 (tgt (psq, pmv)).1 (tgt (psq, pmv)).2 5 = 1
    · rw [if_pos hcond]
      simp only [List.mem_singleton]
      by_cases hc : c = tgt (psq, pmv)
      · subst hc
        constructor
        · intro _
          exact Or.inr ⟨hcond.1, hcond.2.1, hcond.2.2.1, hcond.2.2.2, Or.inl rfl⟩
        · intro _
          exact Or.inl (Or.inr rfl)
      · have htgt : ¬ (c.1 = (tgt (psq, pmv)).1 ∧ c.2 = (tgt (psq, pmv)).2) := by
          intro hcc
          exact hc (Prod.ext_iff.mpr hcc)
        constructor
        · rintro ((h | h) | ⟨hb, he, hw, hm5, hx⟩)
          · exact Or.inl h
          · exact absurd h hc
          · exact Or.inr ⟨hb, he, hw, fun hM => hm5 (Or.inl hM), Or.inr hx⟩
        · rintro (h | ⟨hb, he, hw, hm5, (h | hx)⟩)
          · exact Or.inl (Or.inl h)
          · exact absurd h hc
          · refine Or.inr ⟨hb, he, hw, ?_, hx⟩
            rintro (hM | ⟨ht1, ht2, _⟩)
            · exact hm5 hM
            · exact htgt ⟨ht1, ht2⟩
    · rw [if_neg hcond]
      simp only [List.not_mem_nil, or_false]
      by_cases hc : c = tgt (psq, pmv)
      · subst hc
        constructor
        · rintro (h | ⟨hb, he, hw, hm5, hx⟩)
          · exact Or.inl h
          · exact absurd (Or.inr ⟨rfl, rfl, hb, he, hw⟩) hm5
        · rintro (h | ⟨hb, he, hw, hm5, (h | hx)⟩)
          · exact Or.inl h
          · exact absurd ⟨hb, he, hw, hm5⟩ hcond
          · exact absurd ⟨hb, he, hw, hm5⟩ hcond
      · have htgt : ¬ (c.1 = (tgt (psq, pmv)).1 ∧ c.2 = (tgt (psq, pmv)).2) := by
          intro hcc
          exact hc (Prod.ext_iff.mpr hcc)
        constructor
        · rintro (h | ⟨hb, he, hw, hm5, hx⟩)
          · exact Or.inl h
          · exact Or.inr ⟨hb, he, hw, fun hM => hm5 (Or.inl hM), Or.inr hx⟩
        · rintro (h | ⟨hb, he, hw, hm5, (h | hx)⟩)
          · exact Or.inl h
          · exact absurd h hc
          · refine Or.inr ⟨hb, he, hw, ?_, hx⟩
            rintro (hM | ⟨ht1, ht2, _⟩)
            · exact hm5 hM
            · exact htgt ⟨ht1, ht2⟩

/-- Helper: the probe target of the pusher cell of `c` is `c` itself. -/
theorem tgt_pusher (c : Int × Int) (m : Nat) : tgt (pusher c m, m) = c := by
  unfold tgt pusher
  exact Prod.ext_iff.mpr ⟨by ring, by ring⟩

/-- Helper: the pusher cell of a probe target is the probed square. -/
theorem pusher_tgt (q : Int × Int) (m : Nat) : pusher (tgt (q, m)) m = q := by
  unfold tgt pusher
  exact Prod.ext_iff.mpr ⟨by ring, by ring⟩

/-- Helper: how one probe changes a directional cost layer of a non-empty
cell: it becomes the negated move count exactly when the probe is the
pusher probe of that cell and direction and the push is possible; otherwise
it is unchanged. -/
theorem app_box_read (sz : Nat) (acc : Arr × List (Int × Int))
    (psq : Int × Int) (pmv n : Nat) (hpmv : pmv < 4) (c : Int × Int)
    (hne : ¬ acc.1 c.1 c.2 4 = 1) (m : Nat) (hm : m < 4) :
    (append_square sz acc psq pmv n).1 c.1 c.2 (m + 6) =
      if (psq, pmv) = (pusher c m, m) ∧ in_bounds sz c.1 c.2 ∧
          acc.1 c.1 c.2 1 = 1 ∧
          in_bounds sz (c.1 + (vec m).1) (c.2 + (vec m).2) ∧
          acc.1 (c.1 + (vec m).1) (c.2 + (vec m).2) 4 = 1
        then -(n : Int) else acc.1 c.1 c.2 (m + 6) := by
  by_cases hc : c = tgt (psq, pmv)
  · subst hc
    by_cases hmm2 : pmv = m
    · subst hmm2
      have hcond1 : ((psq, pmv) : (Int × Int) × Nat) = (pusher (tgt (psq, pmv)) pmv, pmv) := by
        rw [pusher_tgt]
      by_cases hb : in_bounds sz (tgt (psq, pmv)).1 (tgt (psq, pmv)).2
      · by_cases hmv : acc.1 (tgt (psq, pmv)).1 (tgt (psq, pmv)).2 1 = 1
        · by_cases hbB : in_bounds sz ((tgt (psq, pmv)).1 + (vec pmv).1)
              ((tgt (psq, pmv)).2 + (vec pmv).2)
          · by_cases heB : acc.1 ((tgt (psq, pmv)).1 + (vec pmv).1)
                ((tgt (psq, pmv)).2 + (vec pmv).2) 4 = 1
            · rw [if_pos ⟨hcond1, hb, hmv, hbB, heB⟩]
              by_cases hw : acc.1 (tgt (psq, pmv)).1 (tgt (psq, pmv)).2 3 = 1
              · rw [app_box_win sz acc psq pmv n hb hne hmv hbB heB hw]
                dsimp only
                rw [setA_ne _ _ _ _ _ _ _ _ (by omega :
                  ¬ ((tgt (psq, pmv)).1 = (tgt (psq, pmv)).1 ∧
                     (tgt (psq, pmv)).2 = (tgt (psq, pmv)).2 ∧ pmv + 6 = 10)),
                  setA_same]
              · rw [app_box_nowin sz acc psq pmv n hb hne hmv hbB heB hw]
                dsimp only
                rw [setA_same]
            · rw [if_neg (by tauto),
                  app_box_skip sz acc psq pmv n hne (Or.inr (Or.inr heB))]
          · rw [if_neg (by tauto),
                app_box_skip sz acc psq pmv n hne (Or.inl hbB)]
        · rw [if_neg (by tauto),
              app_box_skip sz acc psq pmv n hne (Or.inr (Or.inl hmv))]
      · rw [if_neg (by tauto), app_oob sz acc psq pmv n hb]
    · have hcond : ¬ (((psq, pmv) : (Int × Int) × Nat) = (pusher (tgt (psq, pmv)) m, m) ∧
          in_bounds sz (tgt (psq, pmv)).1 (tgt (psq, pmv)).2 ∧
          acc.1 (tgt (psq, pmv)).1 (tgt (psq, pmv)).2 1 = 1 ∧
          in_bounds sz ((tgt (psq, pmv)).1 + (vec m).1) ((tgt (psq, pmv)).2 + (vec m).2) ∧
          acc.1 ((tgt (psq, pmv)).1 + (vec m).1) ((tgt (psq, pmv)).2 + (vec m).2) 4 = 1) := by
        rintro ⟨h1, -⟩
        exact hmm2 ((Prod.mk.injEq .. ).mp h1).2
      rw [if_neg hcond]
      by_cases hb : in_bounds sz (tgt (psq, pmv)).1 (tgt (psq, pmv)).2
      · by_cases hmv : acc.1 (tgt (psq, pmv)).1 (tgt (psq, pmv)).2 1 = 1
        · by_cases hbB : in_bounds sz ((tgt (psq, pmv)).1 + (vec pmv).1)
              ((tgt (psq, pmv)).2 + (vec pmv).2)
          · by_cases heB : acc.1 ((tgt (psq, pmv)).1 + (vec pmv).1)
                ((tgt (psq, pmv)).2 + (vec pmv).2) 4 = 1
            · by_cases hw : acc.1 (tgt (psq, pmv)).1 (tgt (psq, pmv)).2 3 = 1
              · rw [app_box_win sz acc psq pmv n hb hne hmv hbB heB hw]
                dsimp only
                rw [setA_ne _ _ _ _ _ _ _ _ (by omega :
                      ¬ ((tgt (psq, pmv)).1 = (tgt (psq, pmv)).1 ∧
                         (tgt (psq, pmv)).2 = (tgt (psq, pmv)).2 ∧ m + 6 = 10)),
                    setA_ne _ _ _ _ _ _ _ _ (by omega :
                      ¬ ((tgt (psq, pmv)).1 = (tgt (psq, pmv)).1 ∧
                         (tgt (psq, pmv)).2 = (tgt (psq, pmv)).2 ∧ m + 6 = pmv + 6))]
              · rw [app_box_nowin sz acc psq pmv n hb hne hmv hbB heB hw]
                dsimp only
                rw [setA_ne _ _ _ _ _ _ _ _ (by omega :
                      ¬ ((tgt (psq, pmv)).1 = (tgt (psq, pmv)).1 ∧
                         (tgt (psq, pmv)).2 = (tgt (psq, pmv)).2 ∧ m + 6 = pmv + 6))]
            · rw [app_box_skip sz acc psq pmv n hne (Or.inr (Or.inr heB))]
          · rw [app_box_skip sz acc psq pmv n hne (Or.inl hbB)]
        · rw [app_box_skip sz acc psq pmv n hne (Or.inr (Or.inl hmv))]
      · rw [app_oob sz acc psq pmv n hb]
  · have hcc : ¬ (c.1 = (tgt (psq, pmv)).1 ∧ c.2 = (tgt (psq, pmv)).2) := by
      intro h
      exact hc (Prod.ext_iff.mpr h)
    have hcond : ¬ (((psq, pmv) : (Int × Int) × Nat) = (pusher c m, m) ∧
        in_bounds sz c.1 c.2 ∧ acc.1 c.1 c.2 1 = 1 ∧
        in_bounds sz (c.1 + (vec m).1) (c.2 + (vec m).2) ∧
        acc.1 (c.1 + (vec m).1) (c.2 + (vec m).2) 4 = 1) := by
      rintro ⟨h1, -⟩
      exact hc (by rw [h1, tgt_pusher])
    rw [if_neg hcond,
        app_untouched sz acc psq pmv n hpmv c.1 c.2 (m + 6) (Or.inl hcc)]

/-- Helper: a probe keeps layer 10 of a non-empty cell at zero. -/
theorem app_box_10 (sz : Nat) (acc : Arr × List (Int × Int))
    (psq : Int × Int) (pmv n : Nat) (hpmv : pmv < 4) (c : Int × Int)
    (hne : ¬ acc.1 c.1 c.2 4 = 1) (h10 : acc.1 c.1 c.2 10 = 0) :
    (append_square sz acc psq pmv n).1 c.1 c.2 10 = 0 := by
  by_cases hc : c = tgt (psq, pmv)
  · subst hc
    by_cases hb : in_bounds sz (tgt (psq, pmv)).1 (tgt (psq, pmv)).2
    · by_cases hmv : acc.1 (tgt (psq, pmv)).1 (tgt (psq, pmv)).2 1 = 1
      · by_cases hbB : in_bounds sz ((tgt (psq, pmv)).1 + (vec pmv).1)
            ((tgt (psq, pmv)).2 + (vec pmv).2)
        · by_cases heB : acc.1 ((tgt (psq, pmv)).1 + (vec pmv).1)
              ((tgt (psq, pmv)).2 + (vec pmv).2) 4 = 1
          · by_cases hw : acc.1 (tgt (psq, pmv)).1 (tgt (psq, pmv)).2 3 = 1
            · rw [app_box_win sz acc psq pmv n hb hne hmv hbB heB hw]
              dsimp only
              rw [setA_same,
                  setA_ne _ _ _ _ _ _ _ _ (by omega :
                    ¬ ((tgt (psq, pmv)).1 = (tgt (psq, pmv)).1 ∧
                       (tgt (psq, pmv)).2 = (tgt (psq, pmv)).2 ∧ 10 = pmv + 6)),
                  h10]
              omega
            · rw [app_box_nowin sz acc psq pmv n hb hne hmv hbB heB hw]
              dsimp only
              rw [setA_ne _ _ _ _ _ _ _ _ (by omega :
                    ¬ ((tgt (psq, pmv)).1 = (tgt (psq, pmv)).1 ∧
                       (tgt (psq, pmv)).2 = (tgt (psq, pmv)).2 ∧ 10 = pmv + 6))]
              exact h10
          · rw [app_box_skip sz acc psq pmv n hne (Or.inr (Or.inr heB))]
            exact h10
        · rw [app_box_skip sz acc psq pmv n hne (Or.inl hbB)]
          exact h10
      · rw [app_box_skip sz acc psq pmv n hne (Or.inr (Or.inl hmv))]
        exact h10
    · rw [app_oob sz acc psq pmv n hb]
      exact h10
  · have hcc : ¬ (c.1 = (tgt (psq, pmv)).1 ∧ c.2 = (tgt (psq, pmv)).2) := by
      intro h
      exact hc (Prod.ext_iff.mpr h)
    rw [app_untouched sz acc psq pmv n hpmv c.1 c.2 10 (Or.inl hcc)]
    exact h10

/-- Helper: a fold of probes leaves the cost layers (6-10) of an exit cell
with a nonzero cost sum untouched. -/
theorem fold_exit_skip (sz n : Nat) (P : List ((Int × Int) × Nat))
    (hP : ∀ pm ∈ P, pm.2 < 4) :
    ∀ (acc : Arr × List (Int × Int)) (c : Int × Int),
      acc.1 c.1 c.2 3 = 1 → acc.1 c.1 c.2 4 = 1 →
      acc.1 c.1 c.2 6 + acc.1 c.1 c.2 7 + acc.1 c.1 c.2 8 + acc.1 c.1 c.2 9 ≠ 0 →
      ∀ l : Nat, 6 ≤ l → l ≤ 10 →
        (fold_app sz n acc P).1 c.1 c.2 l = acc.1 c.1 c.2 l := by
  induction P with
  | nil => intro acc c _ _ _ l _ _; rfl
  | cons pm P' ih =>
    obtain ⟨psq, pmv⟩ := pm
    intro acc c hwin hemp hsum l h6 h10
    have hm : pmv < 4 := hP (psq, pmv) (List.mem_cons_self _ _)
    have hP' : ∀ q ∈ P', q.2 < 4 := fun q hq => hP q (List.mem_cons_of_mem _ hq)
    have h1 : fold_app sz n acc ((psq, pmv) :: P') =
        fold_app sz n (append_square sz acc psq pmv n) P' := rfl
    by_cases hc : c = tgt (psq, pmv)
    · have happ : append_square sz acc psq pmv n = acc := by
        subst hc
        exact app_exit_skip sz acc psq pmv n hwin hemp hsum
      rw [h1, happ]
      exact ih hP' acc c hwin hemp hsum l h6 h10
    · have hcc : ¬ (c.1 = (tgt (psq, pmv)).1 ∧ c.2 = (tgt (psq, pmv)).2) := by
        intro h
        exact hc (Prod.ext_iff.mpr h)
      have hun : ∀ l' : Nat, (append_square sz acc psq pmv n).1 c.1 c.2 l' = acc.1 c.1 c.2 l' :=
        fun l' => app_untouched sz acc psq pmv n hm c.1 c.2 l' (Or.inl hcc)
      rw [h1, ih hP' _ c (by rw [hun]; exact hwin) (by rw [hun]; exact hemp)
          (by rw [hun, hun, hun, hun]; exact hsum) l h6 h10]
      exact hun l

/-- Helper: a fold of probes over an exit cell with all-zero cost layers:
if some probe arrives at the (in-bounds) cell, exactly one directional layer
and layer 10 record the negated move count; otherwise the layers stay
untouched. -/
theorem fold_exit_fresh (sz n : Nat) (P : List ((Int × Int) × Nat))
    (hP : ∀ pm ∈ P, pm.2 < 4) (hn : 0 < n) :
    ∀ (acc : Arr × List (Int × Int)) (c : Int × Int),
      acc.1 c.1 c.2 3 = 1 → acc.1 c.1 c.2 4 = 1 →
      (∀ m', m' < 4 → acc.1 c.1 c.2 (m' + 6) = 0) →
      (((∃ pm ∈ P, c = tgt pm) ∧ in_bounds sz c.1 c.2) →
        ∃ m, m < 4 ∧ (fold_app sz n acc P).1 c.1 c.2 (m + 6) = -(n : Int) ∧
          (∀ m', m' < 4 → m' ≠ m → (fold_app sz n acc P).1 c.1 c.2 (m' + 6) = 0) ∧
          (fold_app sz n acc P).1 c.1 c.2 10 = -(n : Int)) ∧
      ((¬ ((∃ pm ∈ P, c = tgt pm) ∧ in_bounds sz c.1 c.2)) →
        (∀ m', m' < 4 → (fold_app sz n acc P).1 c.1 c.2 (m' + 6) = 0) ∧
        (fold_app sz n acc P).1 c.1 c.2 10 = acc.1 c.1 c.2 10) := by
  induction P with
  | nil =>
    intro acc c _ _ hz
    refine ⟨?_, ?_⟩
    · rintro ⟨⟨pm, hpm, -⟩, -⟩
      simp at hpm
    · intro _
      exact ⟨hz, rfl⟩
  | cons pm P' ih =>
    obtain ⟨psq, pmv⟩ := pm
    intro acc c hwin hemp hz
    have hm : pmv < 4 := hP (psq, pmv) (List.mem_cons_self _ _)
    have hP' : ∀ q ∈ P', q.2 < 4 := fun q hq => hP q (List.mem_cons_of_mem _ hq)
    have h1 : fold_app sz n acc ((psq, pmv) :: P') =
        fold_app sz n (append_square sz acc psq pmv n) P' := rfl
    by_cases hc : c = tgt (psq, pmv)
    · by_cases hb : in_bounds sz c.1 c.2
      · -- arrival at this probe: the exit is recorded here and later probes
        -- are skipped by the nonzero-sum guard
        have happ : append_square sz acc psq pmv n =
            (setA (setA acc.1 (tgt (psq, pmv)).1 (tgt (psq, pmv)).2 (pmv + 6) (-(n : Int)))
               (tgt (psq, pmv)).1 (tgt (psq, pmv)).2 10 (-(n : Int)), acc.2) := by
          subst hc
          exact app_exit_fresh sz acc psq pmv n hb hwin hemp
            (hz 0 (by omega)) (hz 1 (by omega)) (hz 2 (by omega)) (hz 3 (by omega))
        have hval : ∀ m', m' < 4 →
            (append_square sz acc psq pmv n).1 c.1 c.2 (m' + 6) =
              if m' = pmv then -(n : Int) else 0 := by
          intro m' hm'
          subst hc
          rw [happ]
          dsimp only
          rw [setA_ne _ _ _ _ _ _ _ _ (by omega :
              ¬ ((tgt (psq, pmv)).1 = (tgt (psq, pmv)).1 ∧
                 (tgt (psq, pmv)).2 = (tgt (psq, pmv)).2 ∧ m' + 6 = 10))]
          by_cases he : m' = pmv
          · subst he
            rw [if_pos rfl, setA_same]
          · rw [if_neg he,
                setA_ne _ _ _ _ _ _ _ _ (by omega :
                  ¬ ((tgt (psq, pmv)).1 = (tgt (psq, pmv)).1 ∧
                     (tgt (psq, pmv)).2 = (tgt (psq, pmv)).2 ∧ m' + 6 = pmv + 6))]
            exact hz m' hm'
        have h10 : (append_square sz acc psq pmv n).1 c.1 c.2 10 = -(n : Int) := by
          subst hc
          rw [happ]
          dsimp only
          rw [setA_same]
        have h3 : (append_square sz acc psq pmv n).1 c.1 c.2 3 = acc.1 c.1 c.2 3 := by
          subst hc
          rw [happ]
          dsimp only
          rw [setA_ne _ _ _ _ _ _ _ _ (by omega :
                ¬ ((tgt (psq, pmv)).1 = (tgt (psq, pmv)).1 ∧
                   (tgt (psq, pmv)).2 = (tgt (psq, pmv)).2 ∧ 3 = 10)),
              setA_ne _ _ _ _ _ _ _ _ (by omega :
                ¬ ((tgt (psq, pmv)).1 = (tgt (psq, pmv)).1 ∧
                   (tgt (psq, pmv)).2 = (tgt (psq, pmv)).2 ∧ 3 = pmv + 6))]
        have h4 : (append_square sz acc psq pmv n).1 c.1 c.2 4 = acc.1 c.1 c.2 4 := by
          subst hc
          rw [happ]
          dsimp only
          rw [setA_ne _ _ _ _ _ _ _ _ (by omega :
                ¬ ((tgt (psq, pmv)).1 = (tgt (psq, pmv)).1 ∧
                   (tgt (psq, pmv)).2 = (tgt (psq, pmv)).2 ∧ 4 = 10)),
              setA_ne _ _ _ _ _ _ _ _ (by omega :
                ¬ ((tgt (psq, pmv)).1 = (tgt (psq, pmv)).1 ∧
                   (tgt (psq, pmv)).2 = (tgt (psq, pmv)).2 ∧ 4 = pmv + 6))]
        have hsum : (append_square sz acc psq pmv n).1 c.1 c.2 6 +
            (append_square sz acc psq pmv n).1 c.1 c.2 7 +
            (append_square sz acc psq pmv n).1 c.1 c.2 8 +
            (append_square sz acc psq pmv n).1 c.1 c.2 9 ≠ 0 := by
          have e6 := hval 0 (by omega)
          have e7 := hval 1 (by omega)
          have e8 := hval 2 (by omega)
          have e9 := hval 3 (by omega)
          rw [show (6 : Nat) = 0 + 6 from rfl, show (7 : Nat) = 1 + 6 from rfl,
              show (8 : Nat) = 2 + 6 from rfl, show (9 : Nat) = 3 + 6 from rfl,
              e6, e7, e8, e9]
          interval_cases pmv <;> simp <;> omega
        have hskip := fold_exit_skip sz n P' hP' (append_square sz acc psq pmv n) c
          (by rw [h3]; exact hwin) (by rw [h4]; exact hemp) hsum
        refine ⟨fun _ => ⟨pmv, hm, ?_, ?_, ?_⟩, fun hno => absurd ⟨⟨(psq, pmv),
          List.mem_cons_self _ _, hc⟩, hb⟩ hno⟩
        · rw [h1, hskip (pmv + 6) (by omega) (by omega), hval pmv hm, if_pos rfl]
        · intro m' hm' hne
          rw [h1, hskip (m' + 6) (by omega) (by omega), hval m' hm', if_neg]
          intro he
          exact hne he
        · rw [h1, hskip 10 (by omega) (by omega), h10]
      · -- out of bounds: nothing ever recorded
        have happ : append_square sz acc psq pmv n = acc := by
          subst hc
          exact app_oob sz acc psq pmv n hb
        rw [h1, happ]
        have := ih hP' acc c hwin hemp hz
        refine ⟨fun hyes => absurd hyes.2 hb, fun hno => this.2 ?_⟩
        rintro ⟨-, hbb⟩
        exact hb hbb
    · -- this probe targets another cell; recurse
      have hcc : ¬ (c.1 = (tgt (psq, pmv)).1 ∧ c.2 = (tgt (psq, pmv)).2) := by
        intro h
        exact hc (Prod.ext_iff.mpr h)
      have hun : ∀ l' : Nat, (append_square sz acc psq pmv n).1 c.1 c.2 l' = acc.1 c.1 c.2 l' :=
        fun l' => app_untouched sz acc psq pmv n hm c.1 c.2 l' (Or.inl hcc)
      have := ih hP' (append_square sz acc psq pmv n) c
        (by rw [hun]; exact hwin) (by rw [hun]; exact hemp)
        (fun m' hm' => by rw [hun]; exact hz m' hm')
      refine ⟨fun hyes => ?_, fun hno => ?_⟩
      · obtain ⟨⟨pm', hpm', hcpm⟩, hbb⟩ := hyes
        rcases List.mem_cons.mp hpm' with rfl | hpm'
        · exact absurd hcpm hc
        · rw [h1]
          exact this.1 ⟨⟨pm', hpm', hcpm⟩, hbb⟩
      · rw [h1]
        have hres := this.2 (by
          rintro ⟨⟨pm', hpm', hcpm⟩, hbb⟩
          exact hno ⟨⟨pm', List.mem_cons_of_mem _ hpm', hcpm⟩, hbb⟩)
        exact ⟨hres.1, by rw [hres.2, hun]⟩

/-- Helper: after a fold of probes, a directional cost layer of a non-empty
cell holds the negated move count exactly when the pusher probe occurs in
the list and the push is possible; otherwise it is unchanged. -/
theorem fold_box_entry (sz n : Nat) (P : List ((Int × Int) × Nat))
    (hP : ∀ pm ∈ P, pm.2 < 4) :
    ∀ (acc : Arr × List (Int × Int)) (c : Int × Int),
      ¬ acc.1 c.1 c.2 4 = 1 → ∀ m, m < 4 →
      (fold_app sz n acc P).1 c.1 c.2 (m + 6) =
        if (pusher c m, m) ∈ P ∧ in_bounds sz c.1 c.2 ∧ acc.1 c.1 c.2 1 = 1 ∧
            in_bounds sz (c.1 + (vec m).1) (c.2 + (vec m).2) ∧
            acc.1 (c.1 + (vec m).1) (c.2 + (vec m).2) 4 = 1
          then -(n : Int) else acc.1 c.1 c.2 (m + 6) := by
  induction P with
  | nil =>
    intro acc c hne m hm
    rw [if_neg (by rintro ⟨hmem, -⟩; simp at hmem)]
    rfl
  | cons pm P' ih =>
    obtain ⟨psq, pmv⟩ := pm
    intro acc c hne m hm
    have hpmv : pmv < 4 := hP (psq, pmv) (List.mem_cons_self _ _)
    have hP' : ∀ q ∈ P', q.2 < 4 := fun q hq => hP q (List.mem_cons_of_mem _ hq)
    have h1 : fold_app sz n acc ((psq, pmv) :: P') =
        fold_app sz n (append_square sz acc psq pmv n) P' := rfl
    have hun : ∀ (x y : Int) (l : Nat), l ≤ 4 →
        (append_square sz acc psq pmv n).1 x y l = acc.1 x y l :=
      fun x y l hl => app_untouched sz acc psq pmv n hpmv x y l (Or.inr (Or.inl hl))
    have hread := app_box_read sz acc psq pmv n hpmv c hne m hm
    have hihne : ¬ (append_square sz acc psq pmv n).1 c.1 c.2 4 = 1 := by
      rw [hun c.1 c.2 4 (by omega)]
      exact hne
    have hih := ih hP' (append_square sz acc psq pmv n) c hihne m hm
    rw [h1, hih, hun c.1 c.2 1 (by omega),
        hun (c.1 + (vec m).1) (c.2 + (vec m).2) 4 (by omega), hread]
    by_cases hconds : in_bounds sz c.1 c.2 ∧ acc.1 c.1 c.2 1 = 1 ∧
        in_bounds sz (c.1 + (vec m).1) (c.2 + (vec m).2) ∧
        acc.1 (c.1 + (vec m).1) (c.2 + (vec m).2) 4 = 1
    · by_cases hmem : ((pusher c m, m) : (Int × Int) × Nat) ∈ P'
      · rw [if_pos ⟨hmem, hconds⟩,
            if_pos ⟨List.mem_cons_of_mem _ hmem, hconds⟩]
      · rw [if_neg (by rintro ⟨hmm, -⟩; exact hmem hmm)]
        by_cases hhead : ((psq, pmv) : (Int × Int) × Nat) = (pusher c m, m)
        · rw [if_pos ⟨hhead, hconds⟩,
              if_pos ⟨by rw [hhead]; exact List.mem_cons_self _ _, hconds⟩]
        · rw [if_neg (by rintro ⟨hh, -⟩; exact hhead hh),
              if_neg (by
                rintro ⟨hmm, -⟩
                rcases List.mem_cons.mp hmm with he | hmm'
                · exact hhead he.symm
                · exact hmem hmm')]
    · rw [if_neg (by rintro ⟨-, hcc⟩; exact hconds hcc),
          if_neg (by rintro ⟨-, hcc⟩; exact hconds hcc),
          if_neg (by rintro ⟨-, hcc⟩; exact hconds hcc)]

/-- Helper: a fold of probes keeps layer 10 of a non-empty cell at zero. -/
theorem fold_box_10 (sz n : Nat) (P : List ((Int × Int) × Nat))
    (hP : ∀ pm ∈ P, pm.2 < 4) :
    ∀ (acc : Arr × List (Int × Int)) (c : Int × Int),
      ¬ acc.1 c.1 c.2 4 = 1 → acc.1 c.1 c.2 10 = 0 →
      (fold_app sz n acc P).1 c.1 c.2 10 = 0 := by
  induction P with
  | nil => intro acc c _ h10; exact h10
  | cons pm P' ih =>
    obtain ⟨psq, pmv⟩ := pm
    intro acc c hne h10
    have hpmv : pmv < 4 := hP (psq, pmv) (List.mem_cons_self _ _)
    have hP' : ∀ q ∈ P', q.2 < 4 := fun q hq => hP q (List.mem_cons_of_mem _ hq)
    have h1 : fold_app sz n acc ((psq, pmv) :: P') =
        fold_app sz n (append_square sz acc psq pmv n) P' := rfl
    have hun : (append_square sz acc psq pmv n).1 c.1 c.2 4 = acc.1 c.1 c.2 4 :=
      app_untouched sz acc psq pmv n hpmv c.1 c.2 4 (Or.inr (Or.inl (by omega)))
    rw [h1]
    exact ih hP' _ c (by rw [hun]; exact hne)
      (app_box_10 sz acc psq pmv n hpmv c hne h10)

/-- Helper: a zero-length walk ends at the character cell. -/
theorem reach_zero (sz : Nat) (a : Arr) (c0 c : Int × Int)
    (h : ReachN sz a c0 0 c) : c = c0 := by
  cases h
  rfl

/-- Helper: inversion of a positive-length walk. -/
theorem reach_succ (sz : Nat) (a : Arr) (c0 : Int × Int) (k : Nat)
    (c : Int × Int) (h : ReachN sz a c0 (k + 1) c) :
    ∃ (q : Int × Int) (m : Nat), m < 4 ∧
      c = (q.1 + (vec m).1, q.2 + (vec m).2) ∧ ReachN sz a c0 k q ∧
      walkable sz a c := by
  cases h with
  | step m hm hr hw => exact ⟨_, m, hm, rfl, hr, hw⟩

/-- Helper: the endpoint of a positive-length walk is walkable. -/
theorem reach_pos_walkable (sz : Nat) (a : Arr) (c0 : Int × Int) (k : Nat)
    (c : Int × Int) (hk : 0 < k) (h : ReachN sz a c0 k c) :
    walkable sz a c := by
  cases k with
  | zero => omega
  | succ k' =>
    obtain ⟨q, m, hm, hc, hr, hw⟩ := reach_succ sz a c0 k' c h
    exact hw

/-- Helper: every reachable cell has an exact shortest distance. -/
theorem reach_min (sz : Nat) (a : Arr) (c0 c : Int × Int)
    (h : Reachable sz a c0 c) : ∃ k, dist_eq sz a c0 k c := by
  obtain ⟨n, hn⟩ := h
  induction n using Nat.strong_induction_on with
  | _ n ih =>
    by_cases hmin : ∀ m < n, ¬ ReachN sz a c0 m c
    · exact ⟨n, hn, hmin⟩
    · push_neg at hmin
      obtain ⟨m, hm, hPm⟩ := hmin
      exact ih m hm hPm

/-- Helper: shortest distances are unique. -/
theorem dist_eq_unique (sz : Nat) (a : Arr) (c0 : Int × Int) (k k' : Nat)
    (c : Int × Int) (h : dist_eq sz a c0 k c) (h' : dist_eq sz a c0 k' c) :
    k = k' := by
  rcases Nat.lt_trichotomy k k' with hlt | heq | hgt
  · exact absurd h.1 (h'.2 k hlt)
  · exact heq
  · exact absurd h'.1 (h.2 k' hgt)

/-- Helper: a cell at shortest distance `k+1` has a predecessor at shortest
distance exactly `k`. -/
theorem dist_eq_pred (sz : Nat) (a : Arr) (c0 : Int × Int) (k : Nat)
    (c : Int × Int) (h : dist_eq sz a c0 (k + 1) c) :
    ∃ (q : Int × Int) (m : Nat), m < 4 ∧
      c = (q.1 + (vec m).1, q.2 + (vec m).2) ∧ dist_eq sz a c0 k q ∧
      walkable sz a c := by
  obtain ⟨q, m, hm, hc, hr, hw⟩ := reach_succ sz a c0 k c h.1
  obtain ⟨d, hd⟩ := reach_min sz a c0 q ⟨k, hr⟩
  have hdk : d ≤ k := by
    by_contra hdk
    push_neg at hdk
    exact hd.2 k hdk hr
  rcases Nat.lt_or_ge d k with hlt | hge
  · exfalso
    have : ReachN sz a c0 (d + 1) c := by
      rw [hc]
      exact ReachN.step m hm hd.1 (by rw [← hc]; exact hw)
    exact h.2 (d + 1) (by omega) this
  · have hdk2 : d = k := by omega
    subst hdk2
    exact ⟨q, m, hm, hc, hd, hw⟩

/-- Helper: below a realized shortest distance every distance is realized. -/
theorem dist_all_below (sz : Nat) (a : Arr) (c0 : Int × Int) :
    ∀ (k : Nat) (c : Int × Int), dist_eq sz a c0 k c →
      ∀ j, j ≤ k → ∃ cj, dist_eq sz a c0 j cj := by
  intro k
  induction k with
  | zero =>
    intro c h j hj
    interval_cases j
    exact ⟨c, h⟩
  | succ k' ih =>
    intro c h j hj
    rcases Nat.lt_or_ge j (k' + 1) with hlt | hge
    · obtain ⟨q, m, hm, hc, hq, hw⟩ := dist_eq_pred sz a c0 k' c h
      exact ih q hq j (by omega)
    · have : j = k' + 1 := by omega
      subst this
      exact ⟨c, h⟩

/-- Helper: a cell at positive shortest distance is in bounds; distance zero
is the character cell. -/
theorem dist_eq_inb (sz : Nat) (a : Arr) (c0 : Int × Int)
    (hc0 : in_bounds sz c0.1 c0.2) (k : Nat) (c : Int × Int)
    (h : dist_eq sz a c0 k c) : in_bounds sz c.1 c.2 := by
  cases k with
  | zero =>
    rw [reach_zero sz a c0 c h.1]
    exact hc0
  | succ k' =>
    exact (reach_pos_walkable sz a c0 (k' + 1) c (by omega) h.1).1

/-- Helper: shortest distances are bounded by the cell count — the distinct
cells realizing each smaller distance embed into the grid. -/
theorem dist_eq_bound (sz : Nat) (a : Arr) (c0 : Int × Int)
    (hc0 : in_bounds sz c0.1 c0.2) (k : Nat) (c : Int × Int)
    (h : dist_eq sz a c0 k c) : k < sz * sz + 1 := by
  by_contra hk
  push_neg at hk
  have hall : ∀ j, j ≤ k → ∃ cj, dist_eq sz a c0 j cj :=
    dist_all_below sz a c0 k c h
  classical
  have hall2 : ∀ j : Nat, ∃ cj, (j ≤ k → dist_eq sz a c0 j cj) := by
    intro j
    by_cases hj : j ≤ k
    · obtain ⟨cj, hcj⟩ := hall j hj
      exact ⟨cj, fun _ => hcj⟩
    · exact ⟨c0, fun hj2 => absurd hj2 hj⟩
  choose g hg using hall2
  have hmaps : ∀ j ∈ Finset.range (k + 1),
      (((g j).1.toNat, (g j).2.toNat) : Nat × Nat) ∈
        Finset.range sz ×ˢ Finset.range sz := by
    intro j hj
    rw [Finset.mem_range] at hj
    have hd := hg j (by omega)
    have hb := dist_eq_inb sz a c0 hc0 j (g j) hd
    rw [Finset.mem_product, Finset.mem_range, Finset.mem_range]
    obtain ⟨hb1, hb2, hb3, hb4⟩ := hb
    omega
  have hinj : Set.InjOn (fun j => (((g j).1.toNat, (g j).2.toNat) : Nat × Nat))
      (Finset.range (k + 1)) := by
    intro i hi j hj he
    rw [Finset.coe_range, Set.mem_Iio] at hi hj
    have hdi := hg i (by omega)
    have hdj := hg j (by omega)
    have hbi := dist_eq_inb sz a c0 hc0 i (g i) hdi
    have hbj := dist_eq_inb sz a c0 hc0 j (g j) hdj
    have hpq : ((g i).1.toNat : Nat) = (g j).1.toNat ∧
        ((g i).2.toNat : Nat) = (g j).2.toNat := by
      constructor
      · exact congrArg Prod.fst he
      · exact congrArg Prod.snd he
    have hcells : g i = g j := by
      obtain ⟨hb1, hb2, hb3, hb4⟩ := hbi
      obtain ⟨hc1, hc2, hc3, hc4⟩ := hbj
      refine Prod.ext_iff.mpr ⟨?_, ?_⟩
      · omega
      · omega
    rw [hcells] at hdi
    exact dist_eq_unique sz a c0 i j (g j) hdi hdj
  have hcard := Finset.card_le_card_of_injOn _ hmaps hinj
  simp only [Finset.card_range, Finset.card_product] at hcard
  omega

/-- Helper: every enterable cell has an exact first-arrival distance. -/
theorem enter_min (sz : Nat) (a : Arr) (c0 c : Int × Int)
    (h : ∃ k, EnterN sz a c0 k c) : ∃ k, enter_eq sz a c0 k c := by
  obtain ⟨n, hn⟩ := h
  induction n using Nat.strong_induction_on with
  | _ n ih =>
    by_cases hmin : ∀ m < n, ¬ EnterN sz a c0 m c
    · exact ⟨n, hn, hmin⟩
    · push_neg at hmin
      obtain ⟨m, hm, hPm⟩ := hmin
      exact ih m hm hPm

/-- Helper: first-arrival distances are unique. -/
theorem enter_eq_unique (sz : Nat) (a : Arr) (c0 : Int × Int) (k k' : Nat)
    (c : Int × Int) (h : enter_eq sz a c0 k c) (h' : enter_eq sz a c0 k' c) :
    k = k' := by
  rcases Nat.lt_trichotomy k k' with hlt | heq | hgt
  · exact absurd h.1 (h'.2 k hlt)
  · exact heq
  · exact absurd h'.1 (h.2 k' hgt)

/-- Helper: a first-arrival distance is itself a realized shortest walk
distance, hence bounded by the cell count. -/
theorem enter_eq_bound (sz : Nat) (a : Arr) (c0 : Int × Int)
    (hc0 : in_bounds sz c0.1 c0.2) (k : Nat) (c : Int × Int)
    (h : enter_eq sz a c0 k c) : k < sz * sz + 1 := by
  obtain ⟨hb, q, m, hm, hc, hr⟩ := h.1
  obtain ⟨d, hd⟩ := reach_min sz a c0 q ⟨k, hr⟩
  have hdk : d ≤ k := by
    by_contra hdk
    push_neg at hdk
    exact hd.2 k hdk hr
  have hkd : k ≤ d := by
    by_contra hkd
    push_neg at hkd
    exact h.2 d hkd ⟨hb, q, m, hm, hc, hd.1⟩
  have : k = d := by omega
  subst this
  exact dist_eq_bound sz a c0 hc0 k q hd

/-- Helper: the base state of the frontier loop satisfies the invariant at
stage zero. -/
theorem inv_base (sz : Nat) (ter : Arr) (c0 : Int × Int) :
    BfsInv sz ter c0 0 (setA (clear_upper ter) c0.1 c0.2 5 1, [c0]) := by
  have hclear : ∀ (x y : Int) (l : Nat), 5 ≤ l →
      setA (clear_upper ter) c0.1 c0.2 5 1 x y l = if x = c0.1 ∧ y = c0.2 ∧ l = 5 then 1 else 0 := by
    intro x y l hl
    unfold setA clear_upper
    by_cases hc : x = c0.1 ∧ y = c0.2 ∧ l = 5
    · rw [if_pos hc, if_pos hc]
    · rw [if_neg hc, if_neg hc, if_pos hl]
  refine ⟨?_, ?_, ?_, ?_, ?_⟩
  · intro x y l hl
    dsimp only
    unfold setA clear_upper
    rw [if_neg (by omega : ¬ (x = c0.1 ∧ y = c0.2 ∧ l = 5)), if_neg (by omega : ¬ 5 ≤ l)]
  · intro c
    dsimp only
    rw [hclear c.1 c.2 5 (by omega)]
    constructor
    · intro h
      by_cases hc : c.1 = c0.1 ∧ c.2 = c0.2
      · exact ⟨0, le_refl 0, by rw [Prod.ext_iff.mpr hc]; exact ReachN.zero⟩
      · rw [if_neg (by tauto)] at h
        exact absurd h (by norm_num)
    · rintro ⟨k, hk, hr⟩
      interval_cases k
      rw [reach_zero sz ter c0 c hr]
      rw [if_pos ⟨rfl, rfl, rfl⟩]
  · intro c
    simp only [List.mem_singleton]
    constructor
    · rintro rfl
      exact ⟨ReachN.zero, fun j hj => absurd hj (by omega)⟩
    · rintro ⟨hr, -⟩
      exact reach_zero sz ter c0 c hr
  · intro c _ _
    refine ⟨?_, ?_⟩
    · rintro ⟨k, hk, -⟩
      omega
    · intro _
      refine ⟨by dsimp only; rw [hclear c.1 c.2 10 (by omega), if_neg (by omega)], ?_⟩
      intro m hm
      dsimp only
      rw [hclear c.1 c.2 (m + 6) (by omega), if_neg (by omega)]
  · intro c _
    refine ⟨by dsimp only; rw [hclear c.1 c.2 10 (by omega), if_neg (by omega)], ?_⟩
    intro m hm
    refine ⟨?_, ?_⟩
    · rintro ⟨-, k, hk, -⟩
      omega
    · intro _
      dsimp only
      rw [hclear c.1 c.2 (m + 6) (by omega), if_neg (by omega)]

/-- Helper: the marks component of the invariant is preserved by one
frontier expansion. -/
theorem inv_step_marks (sz : Nat) (ter : Arr) (c0 : Int × Int) (j : Nat)
    (st : Arr × List (Int × Int)) (h : BfsInv sz ter c0 j st) (c : Int × Int) :
    (bfs_step sz (j + 1) st).1 c.1 c.2 5 = 1 ↔
      ∃ k, k ≤ j + 1 ∧ ReachN sz ter c0 k c := by
  obtain ⟨hter, hmark, hfr, hex, hbox⟩ := h
  rw [show bfs_step sz (j + 1) st = fold_app sz (j + 1) (st.1, []) (step_pairs st.2) from
        bfs_step_pairs sz (j + 1) st.1 st.2,
      fold_mark sz (j + 1) (step_pairs st.2) (step_pairs_dir st.2) (st.1, []) c.1 c.2]
  dsimp only
  rw [hter c.1 c.2 4 (by omega), hter c.1 c.2 3 (by omega), hmark c]
  constructor
  · rintro (⟨k, hk, hr⟩ | ⟨hb, he, hw, pm, hpm, ht1, ht2⟩)
    · exact ⟨k, by omega, hr⟩
    · obtain ⟨psq, pmv⟩ := pm
      have hd : pmv < 4 := step_pairs_dir st.2 (psq, pmv) hpm
      have hsq : psq ∈ st.2 := (step_pairs_mem st.2 psq pmv hd).mp hpm
      have hq : dist_eq sz ter c0 j psq := (hfr psq).mp hsq
      refine ⟨j + 1, le_refl _, ?_⟩
      have hc : c = ((psq.1 + (vec pmv).1, psq.2 + (vec pmv).2) : Int × Int) :=
        Prod.ext_iff.mpr ⟨ht1, ht2⟩
      rw [hc]
      exact ReachN.step pmv hd hq.1 (by rw [← hc]; exact ⟨hb, he, hw⟩)
  · rintro ⟨k, hk, hr⟩
    by_cases hold : ∃ k', k' ≤ j ∧ ReachN sz ter c0 k' c
    · exact Or.inl hold
    · push_neg at hold
      obtain ⟨d, hd⟩ := reach_min sz ter c0 c ⟨k, hr⟩
      have hdk : d ≤ k := by
        by_contra hdk
        push_neg at hdk
        exact hd.2 k hdk hr
      have hdj : d = j + 1 := by
        rcases Nat.lt_or_ge d (j + 1) with hlt | hge
        · exact absurd hd.1 (hold d (by omega))
        · omega
      subst hdj
      obtain ⟨q, m, hm, hc, hq, hw⟩ := dist_eq_pred sz ter c0 j c hd
      refine Or.inr ⟨hw.1, hw.2.1, hw.2.2, (q, m), ?_, ?_, ?_⟩
      · exact (step_pairs_mem st.2 q m hm).mpr ((hfr q).mpr hq)
      · rw [hc]
        rfl
      · rw [hc]
        rfl

/-- Helper: the frontier component of the invariant is preserved by one
frontier expansion. -/
theorem inv_step_frontier (sz : Nat) (ter : Arr) (c0 : Int × Int) (j : Nat)
    (st : Arr × List (Int × Int)) (h : BfsInv sz ter c0 j st) (c : Int × Int) :
    c ∈ (bfs_step sz (j + 1) st).2 ↔ dist_eq sz ter c0 (j + 1) c := by
  obtain ⟨hter, hmark, hfr, hex, hbox⟩ := h
  rw [show bfs_step sz (j + 1) st = fold_app sz (j + 1) (st.1, []) (step_pairs st.2) from
        bfs_step_pairs sz (j + 1) st.1 st.2,
      fold_queue sz (j + 1) (step_pairs st.2) (step_pairs_dir st.2) (st.1, []) c]
  dsimp only
  rw [hter c.1 c.2 4 (by omega), hter c.1 c.2 3 (by omega)]
  simp only [List.not_mem_nil, false_or]
  constructor
  · rintro ⟨hb, he, hw, hm5, pm, hpm, hc⟩
    obtain ⟨psq, pmv⟩ := pm
    have hd : pmv < 4 := step_pairs_dir st.2 (psq, pmv) hpm
    have hsq : psq ∈ st.2 := (step_pairs_mem st.2 psq pmv hd).mp hpm
    have hq : dist_eq sz ter c0 j psq := (hfr psq).mp hsq
    have hc2 : c = ((psq.1 + (vec pmv).1, psq.2 + (vec pmv).2) : Int × Int) := by
      rw [hc]
      rfl
    refine ⟨?_, ?_⟩
    · rw [hc2]
      exact ReachN.step pmv hd hq.1 (by rw [← hc2]; exact ⟨hb, he, hw⟩)
    · intro j' hj' hr'
      have : st.1 c.1 c.2 5 = 1 := (hmark c).mpr ⟨j', by omega, hr'⟩
      exact hm5 this
  · intro hd
    obtain ⟨q, m, hm, hc, hq, hw⟩ := dist_eq_pred sz ter c0 j c hd
    refine ⟨hw.1, hw.2.1, hw.2.2, ?_, (q, m), ?_, ?_⟩
    · intro hmk
      obtain ⟨k', hk', hr'⟩ := (hmark c).mp hmk
      exact hd.2 k' (by omega) hr'
    · exact (step_pairs_mem st.2 q m hm).mpr ((hfr q).mpr hq)
    · rw [hc]
      rfl

/-- Helper: the exit-cell component of the invariant is preserved by one
frontier expansion. -/
theorem inv_step_exits (sz : Nat) (ter : Arr) (c0 : Int × Int) (j : Nat)
    (st : Arr × List (Int × Int)) (h : BfsInv sz ter c0 j st) (c : Int × Int)
    (hemp : ter c.1 c.2 4 = 1) (hwin : ter c.1 c.2 3 = 1) :
    ((∃ k, k < j + 1 ∧ enter_eq sz ter c0 k c) →
      ∃ k, k < j + 1 ∧ enter_eq sz ter c0 k c ∧
        (bfs_step sz (j + 1) st).1 c.1 c.2 10 = -((k : Int) + 1) ∧
        ∃ m, m < 4 ∧ (bfs_step sz (j + 1) st).1 c.1 c.2 (m + 6) = -((k : Int) + 1) ∧
          ∀ m', m' < 4 → m' ≠ m → (bfs_step sz (j + 1) st).1 c.1 c.2 (m' + 6) = 0) ∧
    ((¬ ∃ k, k < j + 1 ∧ EnterN sz ter c0 k c) →
      (bfs_step sz (j + 1) st).1 c.1 c.2 10 = 0 ∧
      ∀ m, m < 4 → (bfs_step sz (j + 1) st).1 c.1 c.2 (m + 6) = 0) := by
  obtain ⟨hter, hmark, hfr, hex, hbox⟩ := h
  have hstep : bfs_step sz (j + 1) st = fold_app sz (j + 1) (st.1, []) (step_pairs st.2) :=
    bfs_step_pairs sz (j + 1) st.1 st.2
  have hwin' : st.1 c.1 c.2 3 = 1 := by rw [hter c.1 c.2 3 (by omega)]; exact hwin
  have hemp' : st.1 c.1 c.2 4 = 1 := by rw [hter c.1 c.2 4 (by omega)]; exact hemp
  by_cases harr : ∃ k, k < j ∧ enter_eq sz ter c0 k c
  · -- first arrival happened at an earlier frontier; the guard skips later probes
    obtain ⟨k, hk, hke, h10, m0, hm0, hv0, hoth⟩ := (hex c hemp hwin).1 harr
    have hent : ∀ m', m' < 4 → st.1 c.1 c.2 (m' + 6) =
        if m' = m0 then -((k : Int) + 1) else 0 := by
      intro m' hm'
      by_cases he : m' = m0
      · subst he
        rw [if_pos rfl]
        exact hv0
      · rw [if_neg he]
        exact hoth m' hm' he
    have hsum : st.1 c.1 c.2 6 + st.1 c.1 c.2 7 + st.1 c.1 c.2 8 + st.1 c.1 c.2 9 ≠ 0 := by
      have e6 := hent 0 (by omega)
      have e7 := hent 1 (by omega)
      have e8 := hent 2 (by omega)
      have e9 := hent 3 (by omega)
      rw [show (6 : Nat) = 0 + 6 from rfl, show (7 : Nat) = 1 + 6 from rfl,
          show (8 : Nat) = 2 + 6 from rfl, show (9 : Nat) = 3 + 6 from rfl,
          e6, e7, e8, e9]
      interval_cases m0 <;> simp <;> omega
    have hskip := fold_exit_skip sz (j + 1) (step_pairs st.2) (step_pairs_dir st.2)
      (st.1, []) c hwin' hemp' hsum
    refine ⟨fun _ => ⟨k, by omega, hke, ?_, m0, hm0, ?_, ?_⟩, fun hno => ?_⟩
    · rw [hstep, hskip 10 (by omega) (by omega)]
      exact h10
    · rw [hstep, hskip (m0 + 6) (by omega) (by omega)]
      exact hv0
    · intro m' hm' hne'
      rw [hstep, hskip (m' + 6) (by omega) (by omega)]
      exact hoth m' hm' hne'
    · exact absurd ⟨k, by omega, hke.1⟩ hno
  · -- not arrived before this frontier
    have hnoenter : ¬ ∃ k, k < j ∧ EnterN sz ter c0 k c := by
      rintro ⟨k, hk, hE⟩
      obtain ⟨k', hk'⟩ := enter_min sz ter c0 c ⟨k, hE⟩
      have hk'le : k' ≤ k := by
        by_contra hgt
        push_neg at hgt
        exact hk'.2 k hgt hE
      exact harr ⟨k', by omega, hk'⟩
    obtain ⟨h10z, hzm⟩ := (hex c hemp hwin).2 hnoenter
    have hfresh := fold_exit_fresh sz (j + 1) (step_pairs st.2) (step_pairs_dir st.2)
      (by omega) (st.1, []) c hwin' hemp' hzm
    have hcast : (-(((j + 1 : Nat)) : Int)) = -((j : Int) + 1) := by
      push_cast
      ring
    by_cases harr2 : (∃ pm ∈ step_pairs st.2, c = tgt pm) ∧ in_bounds sz c.1 c.2
    · -- arrival at this frontier
      obtain ⟨⟨pm, hpm, hcpm⟩, hb⟩ := harr2
      obtain ⟨psq, pmv⟩ := pm
      have hd4 : pmv < 4 := step_pairs_dir st.2 (psq, pmv) hpm
      have hsq : psq ∈ st.2 := (step_pairs_mem st.2 psq pmv hd4).mp hpm
      have hq : dist_eq sz ter c0 j psq := (hfr psq).mp hsq
      have hEj : EnterN sz ter c0 j c := by
        refine ⟨hb, psq, pmv, hd4, ?_, hq.1⟩
        rw [hcpm]
        rfl
      have heje : enter_eq sz ter c0 j c := by
        refine ⟨hEj, fun k' hk' hE' => ?_⟩
        exact hnoenter ⟨k', hk', hE'⟩
      obtain ⟨m, hm4, hvm, hothm, h10m⟩ := hfresh.1 ⟨⟨(psq, pmv), hpm, hcpm⟩, hb⟩
      refine ⟨fun hyp => ?_, fun hno => absurd ⟨j, by omega, hEj⟩ hno⟩
      obtain ⟨k', hk', hke'⟩ := hyp
      have hkj : k' = j := enter_eq_unique sz ter c0 k' j c hke' heje
      subst hkj
      refine ⟨k', by omega, hke', ?_, m, hm4, ?_, ?_⟩
      · rw [hstep, h10m]
        exact hcast
      · rw [hstep, hvm]
        exact hcast
      · intro m' hm' hne'
        rw [hstep]
        exact hothm m' hm' hne'
    · -- no arrival at this frontier either
      obtain ⟨hzs, h10s⟩ := hfresh.2 harr2
      refine ⟨fun hyp => ?_, fun _ => ⟨by rw [hstep, h10s]; exact h10z,
        fun m hm => by rw [hstep]; exact hzs m hm⟩⟩
      exfalso
      obtain ⟨k', hk', hke'⟩ := hyp
      rcases Nat.lt_or_ge k' j with hlt | hge
      · exact harr ⟨k', hlt, hke'⟩
      · have hkj : k' = j := by omega
        subst hkj
        obtain ⟨hb, q, mq, hmq, hcq, hrq⟩ := hke'.1
        obtain ⟨d, hd⟩ := reach_min sz ter c0 q ⟨k', hrq⟩
        have hdle : d ≤ k' := by
          by_contra hgt
          push_neg at hgt
          exact hd.2 k' hgt hrq
        rcases Nat.lt_or_ge d k' with hdlt | hdge
        · exact hnoenter ⟨d, hdlt, ⟨hb, q, mq, hmq, hcq, hd.1⟩⟩
        · have hdj : d = k' := by omega
          subst hdj
          have hsq : q ∈ st.2 := (hfr q).mpr hd
          refine harr2 ⟨⟨(q, mq), (step_pairs_mem st.2 q mq hmq).mpr hsq, ?_⟩, hb⟩
          rw [hcq]
          rfl

/-- Helper: the non-empty-cell component of the invariant is preserved by
one frontier expansion. -/
theorem inv_step_boxes (sz : Nat) (ter : Arr) (c0 : Int × Int) (j : Nat)
    (st : Arr × List (Int × Int)) (h : BfsInv sz ter c0 j st) (c : Int × Int)
    (hne : ¬ ter c.1 c.2 4 = 1) :
    (bfs_step sz (j + 1) st).1 c.1 c.2 10 = 0 ∧
    ∀ m, m < 4 →
      ((push_entry_cond sz ter c m ∧ ∃ k, k < j + 1 ∧ dist_eq sz ter c0 k (pusher c m)) →
        ∃ k, k < j + 1 ∧ dist_eq sz ter c0 k (pusher c m) ∧
          (bfs_step sz (j + 1) st).1 c.1 c.2 (m + 6) = -((k : Int) + 1)) ∧
      (¬ (push_entry_cond sz ter c m ∧ ∃ k, k < j + 1 ∧ ReachN sz ter c0 k (pusher c m)) →
        (bfs_step sz (j + 1) st).1 c.1 c.2 (m + 6) = 0) := by
  obtain ⟨hter, hmark, hfr, hex, hbox⟩ := h
  have hstep : bfs_step sz (j + 1) st = fold_app sz (j + 1) (st.1, []) (step_pairs st.2) :=
    bfs_step_pairs sz (j + 1) st.1 st.2
  have hne' : ¬ st.1 c.1 c.2 4 = 1 := by
    rw [hter c.1 c.2 4 (by omega)]
    exact hne
  have hb10 := (hbox c hne).1
  have hcast : (-(((j + 1 : Nat)) : Int)) = -((j : Int) + 1) := by
    push_cast
    ring
  refine ⟨?_, ?_⟩
  · rw [hstep]
    exact fold_box_10 sz (j + 1) (step_pairs st.2) (step_pairs_dir st.2) (st.1, []) c
      hne' hb10
  · intro m hm
    have hread := fold_box_entry sz (j + 1) (step_pairs st.2) (step_pairs_dir st.2)
      (st.1, []) c hne' m hm
    have hcond_iff : ((pusher c m, m) ∈ step_pairs st.2 ∧ in_bounds sz c.1 c.2 ∧
        (st.1, ([] : List (Int × Int))).1 c.1 c.2 1 = 1 ∧
        in_bounds sz (c.1 + (vec m).1) (c.2 + (vec m).2) ∧
        (st.1, ([] : List (Int × Int))).1 (c.1 + (vec m).1) (c.2 + (vec m).2) 4 = 1) ↔
        (dist_eq sz ter c0 j (pusher c m) ∧ push_entry_cond sz ter c m) := by
      constructor
      · rintro ⟨hmem, hbc, h1, hbB, h4B⟩
        refine ⟨(hfr _).mp ((step_pairs_mem st.2 (pusher c m) m hm).mp hmem),
          hbc, ?_, hbB, ?_⟩
        · rw [← hter c.1 c.2 1 (by omega)]
          exact h1
        · rw [← hter (c.1 + (vec m).1) (c.2 + (vec m).2) 4 (by omega)]
          exact h4B
      · rintro ⟨hdp, hbc, h1, hbB, h4B⟩
        refine ⟨(step_pairs_mem st.2 (pusher c m) m hm).mpr ((hfr _).mpr hdp),
          hbc, ?_, hbB, ?_⟩
        · rw [hter c.1 c.2 1 (by omega)]
          exact h1
        · rw [hter (c.1 + (vec m).1) (c.2 + (vec m).2) 4 (by omega)]
          exact h4B
    refine ⟨?_, ?_⟩
    · rintro ⟨hpc, k, hk, hdk⟩
      rcases Nat.lt_or_ge k j with hlt | hge
      · -- recorded at an earlier frontier; no probe writes it now
        obtain ⟨k0, hk0, hdk0, hv⟩ := ((hbox c hne).2 m hm).1 ⟨hpc, k, hlt, hdk⟩
        refine ⟨k0, by omega, hdk0, ?_⟩
        rw [hstep, hread, if_neg]
        · exact hv
        · intro hcc
          obtain ⟨hdp, -⟩ := hcond_iff.mp hcc
          have : j = k0 := dist_eq_unique sz ter c0 j k0 (pusher c m) hdp hdk0
          omega
      · have hkj : k = j := by omega
        subst hkj
        refine ⟨k, by omega, hdk, ?_⟩
        rw [hstep, hread, if_pos (hcond_iff.mpr ⟨hdk, hpc⟩)]
        exact hcast
    · intro hno
      rw [hstep, hread, if_neg]
      · exact ((hbox c hne).2 m hm).2 (by
          rintro ⟨hpc, k, hk, hr⟩
          exact hno ⟨hpc, k, by omega, hr⟩)
      · intro hcc
        obtain ⟨hdp, hpc⟩ := hcond_iff.mp hcc
        exact hno ⟨hpc, j, by omega, hdp.1⟩

/-- Helper: one frontier expansion preserves the whole invariant. -/
theorem inv_step (sz : Nat) (ter : Arr) (c0 : Int × Int) (j : Nat)
    (st : Arr × List (Int × Int)) (h : BfsInv sz ter c0 j st) :
    BfsInv sz ter c0 (j + 1) (bfs_step sz (j + 1) st) := by
  refine ⟨?_, fun c => inv_step_marks sz ter c0 j st h c,
    fun c => inv_step_frontier sz ter c0 j st h c,
    fun c hemp hwin => inv_step_exits sz ter c0 j st h c hemp hwin,
    fun c hne => inv_step_boxes sz ter c0 j st h c hne⟩
  intro x y l hl
  rw [show bfs_step sz (j + 1) st = fold_app sz (j + 1) (st.1, []) (step_pairs st.2) from
        bfs_step_pairs sz (j + 1) st.1 st.2,
      fold_low sz (j + 1) (step_pairs st.2) (step_pairs_dir st.2) (st.1, []) x y l
        (Or.inl hl)]
  exact h.1 x y l hl

/-- Helper: a stalled frontier stalls the expansion. -/
theorem bfs_step_nil (sz n : Nat) (st : Arr × List (Int × Int))
    (hemp : st.2 = []) : bfs_step sz n st = st := by
  calc bfs_step sz n st = fold_app sz n (st.1, []) (step_pairs st.2) :=
        bfs_step_pairs sz n st.1 st.2
    _ = (st.1, []) := by rw [hemp]; rfl
    _ = st := Prod.ext_iff.mpr ⟨rfl, hemp.symm⟩

/-- Helper: the invariant holds at every stage of the frontier loop. -/
theorem inv_iter (sz : Nat) (ter : Arr) (c0 : Int × Int) :
    ∀ (fuel j : Nat) (st : Arr × List (Int × Int)), BfsInv sz ter c0 j st →
      BfsInv sz ter c0 (j + fuel) (bfs_iter sz fuel st j) := by
  intro fuel
  induction fuel with
  | zero => intro j st h; exact h
  | succ f ih =>
    intro j st h
    rw [show bfs_iter sz (f + 1) st j =
        if st.2 = [] then st else bfs_iter sz f (bfs_step sz (j + 1) st) (j + 1) from rfl]
    by_cases hemp : st.2 = []
    · rw [if_pos hemp]
      have hall : ∀ e : Nat, BfsInv sz ter c0 (j + 1 + e) st := by
        intro e
        induction e with
        | zero =>
          have h1 := inv_step sz ter c0 j st h
          rw [bfs_step_nil sz (j + 1) st hemp] at h1
          exact h1
        | succ e' ihe =>
          have h2 := inv_step sz ter c0 (j + 1 + e') st ihe
          rw [bfs_step_nil sz (j + 1 + e' + 1) st hemp] at h2
          exact h2
      rw [show j + (f + 1) = j + 1 + f from by omega]
      exact hall f
    · rw [if_neg hemp, show j + (f + 1) = (j + 1) + f from by omega]
      exact ih (j + 1) (bfs_step sz (j + 1) st) (inv_step sz ter c0 j st h)

/-- Helper: the fuelled loop on an empty frontier returns the grid. -/
theorem bfs_loop_nil (sz : Nat) (fuel : Nat) (a : Arr) (n : Nat) :
    bfs_loop sz fuel a [] n = a := by
  cases fuel with
  | zero => rfl
  | succ f => simp [bfs_loop]

/-- Helper: `bfs_loop` is the grid component of the state iterator. -/
theorem bfs_loop_iter (sz : Nat) :
    ∀ (fuel : Nat) (a : Arr) (s : List (Int × Int)) (n : Nat),
      bfs_loop sz fuel a s n = (bfs_iter sz fuel (a, s) n).1 := by
  intro fuel
  induction fuel with
  | zero => intro a s n; rfl
  | succ f ih =>
    intro a s n
    by_cases hs : s = []
    · subst hs
      rw [bfs_loop_nil]
      rfl
    · show (if s = [] then a
          else bfs_loop sz f (bfs_step sz (n + 1) (a, s)).1 (bfs_step sz (n + 1) (a, s)).2 (n + 1))
        = (if ((a, s) : Arr × List (Int × Int)).2 = [] then (a, s)
          else bfs_iter sz f (bfs_step sz (n + 1) (a, s)) (n + 1)).1
      rw [if_neg hs, if_neg hs, ih]

/-- Helper: a nonempty produced frontier strictly shrinks the unmarked cell
set. -/
theorem step_unmarked_lt (sz n : Nat) (a : Arr) (squares : List (Int × Int))
    (hne : (bfs_step sz n (a, squares)).2 ≠ []) :
    (unmarked_set sz (bfs_step sz n (a, squares)).1).card < (unmarked_set sz a).card := by
  obtain ⟨c, hc⟩ := List.exists_mem_of_ne_nil _ hne
  have hq := (fold_queue sz n (step_pairs squares) (step_pairs_dir squares)
      (a, []) c).mp (by
    rw [← bfs_step_pairs sz n a squares]
    exact hc)
  simp only [List.not_mem_nil, false_or] at hq
  obtain ⟨hb, he, hw, hm5, pm, hpm, hcpm⟩ := hq
  have hmarked : (bfs_step sz n (a, squares)).1 c.1 c.2 5 = 1 := by
    rw [bfs_step_pairs sz n a squares]
    exact (fold_mark sz n (step_pairs squares) (step_pairs_dir squares)
      (a, []) c.1 c.2).mpr (Or.inr ⟨hb, he, hw, pm, hpm, by rw [hcpm], by rw [hcpm]⟩)
  have hmono : ∀ x y : Int, a x y 5 = 1 → (bfs_step sz n (a, squares)).1 x y 5 = 1 := by
    intro x y hx
    rw [bfs_step_pairs sz n a squares]
    exact (fold_mark sz n (step_pairs squares) (step_pairs_dir squares)
      (a, []) x y).mpr (Or.inl hx)
  have hsub : unmarked_set sz (bfs_step sz n (a, squares)).1 ⊆ unmarked_set sz a := by
    intro q hqmem
    unfold unmarked_set at hqmem ⊢
    rw [Finset.mem_filter] at hqmem ⊢
    exact ⟨hqmem.1, fun hmk => hqmem.2 (hmono _ _ hmk)⟩
  have hwit : (((c.1.toNat, c.2.toNat)) : Nat × Nat) ∈ unmarked_set sz a := by
    unfold unmarked_set
    rw [Finset.mem_filter, Finset.mem_product, Finset.mem_range, Finset.mem_range]
    obtain ⟨hb1, hb2, hb3, hb4⟩ := hb
    refine ⟨⟨by omega, by omega⟩, ?_⟩
    rw [show ((c.1.toNat : Int)) = c.1 from by omega,
        show ((c.2.toNat : Int)) = c.2 from by omega]
    exact hm5
  have hwit2 : (((c.1.toNat, c.2.toNat)) : Nat × Nat) ∉
      unmarked_set sz (bfs_step sz n (a, squares)).1 := by
    unfold unmarked_set
    rw [Finset.mem_filter]
    rintro ⟨-, hnm⟩
    obtain ⟨hb1, hb2, hb3, hb4⟩ := hb
    rw [show ((c.1.toNat : Int)) = c.1 from by omega,
        show ((c.2.toNat : Int)) = c.2 from by omega] at hnm
    exact hnm hmarked
  exact Finset.card_lt_card ((Finset.ssubset_iff_of_subset hsub).mpr
    ⟨_, hwit, hwit2⟩)

/-- Helper: beyond enough fuel the loop's result is fuel-independent. -/
theorem bfs_loop_stable :
    ∀ (k e sz : Nat) (a : Arr) (squares : List (Int × Int)) (n : Nat),
      (unmarked_set sz a).card < k →
      bfs_loop sz (k + e) a squares n = bfs_loop sz k a squares n := by
  intro k
  induction k with
  | zero => intro e sz a s n h; omega
  | succ k' ih =>
    intro e sz a s n h
    by_cases hs : s = []
    · subst hs
      rw [bfs_loop_nil, bfs_loop_nil]
    · have hstep1 : bfs_loop sz (k' + 1) a s n =
          bfs_loop sz k' (bfs_step sz (n + 1) (a, s)).1 (bfs_step sz (n + 1) (a, s)).2 (n + 1) := by
        simp only [bfs_loop]
        rw [if_neg hs]
      have hstep2 : bfs_loop sz (k' + 1 + e) a s n =
          bfs_loop sz (k' + e) (bfs_step sz (n + 1) (a, s)).1 (bfs_step sz (n + 1) (a, s)).2 (n + 1) := by
        rw [show k' + 1 + e = (k' + e) + 1 from by omega]
        simp only [bfs_loop]
        rw [if_neg hs]
      by_cases hne : (bfs_step sz (n + 1) (a, s)).2 = []
      · rw [hstep1, hstep2, hne, bfs_loop_nil, bfs_loop_nil]
      · have hlt := step_unmarked_lt sz (n + 1) a s hne
        rw [hstep1, hstep2, ih e sz _ _ (n + 1) (by omega)]

/-- Helper: the unmarked set never exceeds the cell count. -/
theorem unmarked_card_le (sz : Nat) (a : Arr) :
    (unmarked_set sz a).card ≤ sz * sz := by
  have h := Finset.card_filter_le (Finset.range sz ×ˢ Finset.range sz)
    (fun q => ¬ a (q.1 : Int) (q.2 : Int) 5 = 1)
  simp only [Finset.card_product, Finset.card_range] at h
  exact h

/-- C9: every reachability pass terminates.  The frontier loop's result is
already final after `(number of unmarked cells) + 1` iterations — the
reachable-flag guard lets each productive iteration strictly shrink the
unmarked set — and consequently `assign_pushes_fuel` with any fuel of at
least `size*size + 1` computes exactly `assign_pushes`, whose own fuel
bound is therefore no restriction: the pass ends after work proportional
to the number of cells. -/
theorem reachability_pass_terminates :
    (∀ (sz : Nat) (a : Arr) (squares : List (Int × Int)) (n fuel : Nat),
      (unmarked_set sz a).card + 1 ≤ fuel →
      bfs_loop sz fuel a squares n =
        bfs_loop sz ((unmarked_set sz a).card + 1) a squares n) ∧
    (∀ (p : PushPosition) (fuel : Nat), p.size * p.size + 1 ≤ fuel →
      assign_pushes_fuel p fuel = assign_pushes p) := by
  have hpart1 : ∀ (sz : Nat) (a : Arr) (squares : List (Int × Int)) (n fuel : Nat),
      (unmarked_set sz a).card + 1 ≤ fuel →
      bfs_loop sz fuel a squares n =
        bfs_loop sz ((unmarked_set sz a).card + 1) a squares n := by
    intro sz a squares n fuel hf
    rw [show fuel = ((unmarked_set sz a).card + 1) + (fuel - ((unmarked_set sz a).card + 1))
          from by omega]
    exact bfs_loop_stable ((unmarked_set sz a).card + 1) _ sz a squares n (by omega)
  refine ⟨hpart1, ?_⟩
  intro p fuel hf
  have hcard := unmarked_card_le p.size
    (setA (clear_upper p.arr) p.char_loc.1 p.char_loc.2 5 1)
  have h1 := hpart1 p.size (setA (clear_upper p.arr) p.char_loc.1 p.char_loc.2 5 1)
    [p.char_loc] 0 fuel (by omega)
  have h2 := hpart1 p.size (setA (clear_upper p.arr) p.char_loc.1 p.char_loc.2 5 1)
    [p.char_loc] 0 (p.size * p.size + 1) (by omega)
  show ({ p with arr := add_visits (bfs_loop p.size fuel
      (setA (clear_upper p.arr) p.char_loc.1 p.char_loc.2 5 1) [p.char_loc] 0) } : PushPosition)
    = { p with arr := add_visits (bfs_loop p.size (p.size * p.size + 1)
      (setA (clear_upper p.arr) p.char_loc.1 p.char_loc.2 5 1) [p.char_loc] 0) }
  rw [h1, h2]

/-- Witness for `reachability_pass_terminates`: on the 3-by-3 board, fuel 12
and the canonical fuel 10 compute the same pass. -/
theorem reachability_pass_terminates_witness :
    assign_pushes_fuel p3 12 = assign_pushes p3 :=
  reachability_pass_terminates.2 p3 12 (by decide)

/-- Helper: the visit-counter accumulation touches only layer 11. -/
theorem add_visits_ne (a : Arr) (x y : Int) (l : Nat) (h : ¬ l = 11) :
    add_visits a x y l = a x y l := by
  unfold add_visits
  rw [if_neg h]

/-- Helper: the reachability pass invariant holds at every stage for the
state the pass actually starts from. -/
theorem inv_at (p : PushPosition) (j : Nat) :
    BfsInv p.size p.arr p.char_loc j
      (bfs_iter p.size j
        (setA (clear_upper p.arr) p.char_loc.1 p.char_loc.2 5 1, [p.char_loc]) 0) := by
  have h := inv_iter p.size p.arr p.char_loc j 0
    (setA (clear_upper p.arr) p.char_loc.1 p.char_loc.2 5 1, [p.char_loc])
    (inv_base p.size p.arr p.char_loc)
  rwa [Nat.zero_add] at h

/-- Helper: the grid of `assign_pushes` is the visit-accumulated grid of the
state iterator run for `size*size + 1` frontiers. -/
theorem assign_arr (p : PushPosition) :
    (assign_pushes p).arr =
      add_visits ((bfs_iter p.size (p.size * p.size + 1)
        (setA (clear_upper p.arr) p.char_loc.1 p.char_loc.2 5 1, [p.char_loc]) 0).1) := by
  show add_visits (bfs_loop p.size (p.size * p.size + 1)
      (setA (clear_upper p.arr) p.char_loc.1 p.char_loc.2 5 1) [p.char_loc] 0) = _
  rw [bfs_loop_iter]

/-- C1: after a reachability pass on a board whose terrain is only
empty/unmovable/box cells (no winspaces), the recorded data is exactly the
shortest-path structure of the walk graph: at every stage `j` of the
frontier loop a cell is flagged reachable iff its true shortest distance
from the character is at most `j` (so the frontier number at which a cell
is first flagged is its exact shortest distance); a cell is flagged after
the pass iff it is reachable at all; and a non-empty cell's directional
cost layer holds the negated (shortest distance of the unique pushing cell
plus one) — the true minimal number of moves to perform that push — when
the push is possible and its pusher reachable, and zero otherwise. -/
theorem bfs_distances_correct (p : PushPosition)
    (hc0 : in_bounds p.size p.char_loc.1 p.char_loc.2)
    (hterr : ∀ x y : Int, in_bounds p.size x y →
      ¬ p.arr x y 3 = 1 ∧ (p.arr x y 4 = 1 ∨ p.arr x y 0 = 1 ∨ p.arr x y 1 = 1)) :
    (∀ (j : Nat) (c : Int × Int),
      ((bfs_iter p.size j
          (setA (clear_upper p.arr) p.char_loc.1 p.char_loc.2 5 1, [p.char_loc]) 0).1
          c.1 c.2 5 = 1 ↔ ∃ k, k ≤ j ∧ ReachN p.size p.arr p.char_loc k c)) ∧
    (∀ c : Int × Int, ((assign_pushes p).arr c.1 c.2 5 = 1 ↔
      Reachable p.size p.arr p.char_loc c)) ∧
    (∀ (c : Int × Int) (m : Nat), m < 4 → ¬ p.arr c.1 c.2 4 = 1 →
      (∀ k, dist_eq p.size p.arr p.char_loc k (pusher c m) →
        push_entry_cond p.size p.arr c m →
        (assign_pushes p).arr c.1 c.2 (m + 6) = -((k : Int) + 1)) ∧
      ((¬ Reachable p.size p.arr p.char_loc (pusher c m) ∨
        ¬ push_entry_cond p.size p.arr c m) →
        (assign_pushes p).arr c.1 c.2 (m + 6) = 0)) := by
  refine ⟨fun j c => (inv_at p j).2.1 c, fun c => ?_, fun c m hm hne => ⟨?_, ?_⟩⟩
  · rw [assign_arr p, add_visits_ne _ _ _ _ (by omega),
        (inv_at p (p.size * p.size + 1)).2.1 c]
    constructor
    · rintro ⟨k, hk, hr⟩
      exact ⟨k, hr⟩
    · intro hr
      obtain ⟨d, hd⟩ := reach_min p.size p.arr p.char_loc c hr
      exact ⟨d, by
        have := dist_eq_bound p.size p.arr p.char_loc hc0 d c hd
        omega, hd.1⟩
  · intro k hdk hpc
    have hkJ : k < p.size * p.size + 1 :=
      dist_eq_bound p.size p.arr p.char_loc hc0 k (pusher c m) hdk
    obtain ⟨k0, hk0, hdk0, hv⟩ :=
      (((inv_at p (p.size * p.size + 1)).2.2.2.2 c hne).2 m hm).1 ⟨hpc, k, hkJ, hdk⟩
    have hkk : k0 = k := dist_eq_unique p.size p.arr p.char_loc k0 k (pusher c m) hdk0 hdk
    subst hkk
    rw [assign_arr p, add_visits_ne _ _ _ _ (by omega)]
    exact hv
  · intro hor
    rw [assign_arr p, add_visits_ne _ _ _ _ (by omega)]
    refine (((inv_at p (p.size * p.size + 1)).2.2.2.2 c hne).2 m hm).2 ?_
    rintro ⟨hpc, k, hk, hr⟩
    rcases hor with hnr | hnpc
    · exact hnr ⟨k, hr⟩
    · exact hnpc hpc

/-- Witness for `bfs_distances_correct`: the exit-free 3-by-3 board `pC1`
(character at `(1,1)`, box at `(1,2)`) — its pass flags the corner `(0,0)`
exactly when that corner is reachable. -/
theorem bfs_distances_correct_witness :
    (assign_pushes pC1).arr (((0 : Int), (0 : Int)) : Int × Int).1
        (((0 : Int), (0 : Int)) : Int × Int).2 5 = 1 ↔
      Reachable pC1.size pC1.arr pC1.char_loc ((0 : Int), (0 : Int)) :=
  (bfs_distances_correct pC1 (by decide) (by
    intro x y hb
    obtain ⟨h1, h2, h3, h4⟩ := hb
    have hsz : ((pC1.size : Nat) : Int) = 3 := by decide
    rw [hsz] at h3 h4
    interval_cases x <;> interval_cases y <;> exact ⟨by decide, by decide⟩)).2.1
    ((0 : Int), (0 : Int))

/-- C5 as stated is false for a box resting on an exit: on `pBE` the box on
the winspace `(2,2)` is pushable east and south, both at cost magnitude 2
(the recorded directional costs are `-2`), yet layer 10 holds `0`, not
`-2` — the `max` with the cleared value `0` always selects `0`. -/
theorem best_exit_cost_cex :
    pBE.arr 2 2 7 = -2 ∧ pBE.arr 2 2 8 = -2 ∧
    pBE.arr 2 2 10 = 0 ∧ ¬ pBE.arr 2 2 10 = -2 := by
  exact ⟨by decide, by decide, by decide, by decide⟩

/-- C5 (amended): after a reachability pass, for an empty exit cell the
recorded `BestExitCost` (layer 10) equals `-a` where `a` is the minimal
number of moves needed to enter the exit (the first BFS arrival; later
arrivals are ignored); but for a box resting on an exit — and any other
non-empty cell — layer 10 remains `0`, because the recorded value is the
maximum of the cleared value `0` and a negative number. -/
theorem best_exit_cost_correct (p : PushPosition)
    (hc0 : in_bounds p.size p.char_loc.1 p.char_loc.2) :
    (∀ c : Int × Int, p.arr c.1 c.2 4 = 1 → p.arr c.1 c.2 3 = 1 →
      ∀ k, enter_eq p.size p.arr p.char_loc k c →
        (assign_pushes p).arr c.1 c.2 10 = -((k : Int) + 1)) ∧
    (∀ c : Int × Int, ¬ p.arr c.1 c.2 4 = 1 →
      (assign_pushes p).arr c.1 c.2 10 = 0) := by
  refine ⟨fun c hemp hwin k hke => ?_, fun c hne => ?_⟩
  · have hkJ : k < p.size * p.size + 1 :=
      enter_eq_bound p.size p.arr p.char_loc hc0 k c hke
    obtain ⟨k0, hk0, hke0, h10, -⟩ :=
      ((inv_at p (p.size * p.size + 1)).2.2.2.1 c hemp hwin).1 ⟨k, hkJ, hke⟩
    have hkk : k0 = k := enter_eq_unique p.size p.arr p.char_loc k0 k c hke0 hke
    subst hkk
    rw [assign_arr p, add_visits_ne _ _ _ _ (by omega)]
    exact h10
  · rw [assign_arr p, add_visits_ne _ _ _ _ (by omega)]
    exact ((inv_at p (p.size * p.size + 1)).2.2.2.2 c hne).1

/-- Witness for `best_exit_cost_correct`: on the open 3-by-3 board the
exit `(1,2)` adjoins the character, so its first arrival takes one move and
the pass records `-1` on layer 10. -/
theorem best_exit_cost_correct_witness :
    (assign_pushes p3).arr ((1 : Int), (2 : Int)).1 ((1 : Int), (2 : Int)).2 10
      = -(((0 : Nat) : Int) + 1) :=
  (best_exit_cost_correct p3 (by decide)).1 (1, 2) (by decide) (by decide) 0
    ⟨⟨by decide, p3.char_loc, 1, by omega, by decide, ReachN.zero⟩,
      fun j hj => absurd hj (by omega)⟩

/-- Witness for `augmentor_label_state_consistent`: the quarter-turn pair at
the label `(7, 11, 2)` over an asymmetric tensor — the rotated index decodes
to the rotated target and the rotated state carries the original cost. -/
theorem augmentor_label_state_consistent_witness :
    decode_num size ((size : Int) - 1) ((size : Int) - 1)
        (move_index (38 - 11) 7 (((2 + 3) % 4 : Nat) : Int))
      = (38 - 11, 7, (((2 + 3) % 4 : Nat) : Int)) ∧
    rotState (2 * size - 1) boardSym (38 - 11) 7 (6 + (2 + 3) % 4)
      = boardSym 7 11 (6 + 2) :=
  (augmentor_label_state_consistent boardSym 7 11 2 (by norm_num)
    (by norm_num [size]) (by norm_num) (by norm_num [size])
    (by norm_num)).2.2.2.1
